import Mathlib

/-!
Verification development for the optimistic-diff engine of the
openstreetmap-ng repository.

The Python sources are shallowly embedded: pure data flow becomes Lean
functions, the database becomes an explicit state value threaded through the
functions, Python `int` becomes `Int`, Python exceptions become `Option` /
`Except`.  Definitions follow the corresponding source functions; database
query helpers that are not part of the provided sources are modelled from the
specification and marked as such in their doc comments.
-/

namespace OsmNG

/-- Element type tag (`models/element_type.py`, used via `type.value[0]`):
node, way, relation. -/
inductive ElementType where
  | node
  | way
  | relation
deriving DecidableEq

/-- First character of the type's string value (`type.value[0]` in
`VersionedElementRef.__str__`): node ↦ n, way ↦ w, relation ↦ r. -/
def ElementType.shortChar : ElementType → Char
  | .node => 'n'
  | .way => 'w'
  | .relation => 'r'

/-- Modelled from the spec: `ElementType.from_str` (its module is not among
the provided sources) parses the one-letter type prefix, the inverse of
`type.value[0]`; an unknown letter is a parse error. -/
def ElementType.fromShortChar : Char → Option ElementType
  | 'n' => some .node
  | 'w' => some .way
  | 'r' => some .relation
  | _ => none

/-- `VersionedElementRef` (`models/versioned_element_ref.py`): an element
type, a typed id and a revision version. -/
structure VersionedElementRef where
  type : ElementType
  typed_id : Int
  version : Int
deriving DecidableEq

/-! ### Decimal rendering and parsing

Python renders ids and versions with `str(int)` and parses them with
`int(str)`; we model both on `List Char`.  `natChars` renders a natural
number as its decimal digits, `intChars` adds the sign, `parseNatChars` and
`parseIntChars` parse them back (modelling Python `int()` on an optional
sign followed by decimal digits). -/

/-- Decimal digit characters of a natural number, most significant first;
`0` renders as `"0"`. -/
def natChars (n : Nat) : List Char :=
  if n = 0 then ['0']
  else ((Nat.digits 10 n).map (fun d => Char.ofNat (48 + d))).reverse

/-- Decimal rendering of an integer as produced by Python `str`. -/
def intChars (i : Int) : List Char :=
  if i < 0 then '-' :: natChars i.natAbs else natChars i.toNat

/-- Parse a nonempty all-digit string into a natural number. -/
def parseNatChars (l : List Char) : Option Nat :=
  if l.isEmpty || !(l.all Char.isDigit) then none
  else some (l.foldl (fun a c => 10 * a + (c.toNat - 48)) 0)

/-- Parse an optionally signed decimal string into an integer, modelling
Python `int()` on canonical inputs. -/
def parseIntChars (l : List Char) : Option Int :=
  match l with
  | [] => none
  | c :: rest =>
    if c = '-' then (parseNatChars rest).map (fun n => -(n : Int))
    else if c = '+' then (parseNatChars rest).map (fun n => (n : Int))
    else (parseNatChars (c :: rest)).map (fun n => (n : Int))

lemma digit_char_isDigit {d : Nat} (h : d < 10) :
    (Char.ofNat (48 + d)).isDigit = true := by
  interval_cases d <;> decide

lemma digit_char_val {d : Nat} (h : d < 10) :
    (Char.ofNat (48 + d)).toNat - 48 = d := by
  interval_cases d <;> decide

lemma natChars_ne_nil (n : Nat) : natChars n ≠ [] := by
  unfold natChars
  split
  · simp
  · simp only [ne_eq, List.reverse_eq_nil_iff, List.map_eq_nil_iff]
    intro hd
    have hne : Nat.digits 10 n ≠ [] := Nat.digits_ne_nil_iff_ne_zero.mpr (by assumption)
    exact hne hd

lemma natChars_all_digits (n : Nat) : (natChars n).all Char.isDigit = true := by
  unfold natChars
  split
  · decide
  · simp only [List.all_eq_true, List.mem_reverse, List.mem_map]
    rintro c ⟨d, hd, rfl⟩
    exact digit_char_isDigit (Nat.digits_lt_base (by norm_num) hd)

lemma foldr_digits_eq_ofDigits (L : List Nat) (a : Nat) (hL : ∀ d ∈ L, d < 10) :
    L.foldr (fun d acc => 10 * acc + ((Char.ofNat (48 + d)).toNat - 48)) a
      = a * 10 ^ L.length + Nat.ofDigits 10 L := by
  induction L with
  | nil => simp
  | cons d t ih =>
    have hd : d < 10 := hL d (by simp)
    have ht : ∀ x ∈ t, x < 10 := fun x hx => hL x (by simp [hx])
    simp only [List.foldr_cons, ih ht, digit_char_val hd, Nat.ofDigits_cons,
      List.length_cons]
    ring

lemma parseNatChars_natChars (n : Nat) : parseNatChars (natChars n) = some n := by
  unfold parseNatChars
  rw [if_neg]
  · congr 1
    by_cases h0 : n = 0
    · subst h0; decide
    · unfold natChars
      rw [if_neg h0, ← List.map_reverse, List.foldl_map, List.foldl_reverse]
      have := foldr_digits_eq_ofDigits (Nat.digits 10 n) 0
        (fun d hd => Nat.digits_lt_base (by norm_num) hd)
      simpa [Nat.ofDigits_digits] using this
  · simp [natChars_ne_nil n, List.isEmpty_iff, natChars_all_digits n]

lemma isDigit_ne_minus {c : Char} (h : c.isDigit = true) : c ≠ '-' := by
  intro e; rw [e] at h; exact absurd h (by decide)

lemma isDigit_ne_plus {c : Char} (h : c.isDigit = true) : c ≠ '+' := by
  intro e; rw [e] at h; exact absurd h (by decide)

lemma isDigit_ne_v {c : Char} (h : c.isDigit = true) : c ≠ 'v' := by
  intro e; rw [e] at h; exact absurd h (by decide)

lemma parseIntChars_intChars (i : Int) : parseIntChars (intChars i) = some i := by
  unfold intChars
  split
  · rename_i hneg
    have habs : ((i.natAbs : Nat) : Int) = -i := Int.ofNat_natAbs_of_nonpos (le_of_lt hneg)
    simp [parseIntChars, parseNatChars_natChars, habs]
  · rename_i hpos
    obtain ⟨c, rest, hcr⟩ := List.exists_cons_of_ne_nil (natChars_ne_nil i.toNat)
    have hall := natChars_all_digits i.toNat
    rw [hcr] at hall ⊢
    simp only [List.all_cons, Bool.and_eq_true] at hall
    have hc : c.isDigit = true := hall.1
    simp only [parseIntChars, if_neg (isDigit_ne_minus hc), if_neg (isDigit_ne_plus hc)]
    rw [← hcr, parseNatChars_natChars]
    simp [Int.toNat_of_nonneg (not_lt.mp hpos)]

/-! ### VersionedElementRef string representation (`versioned_element_ref.py`) -/

/-- `VersionedElementRef.__str__`: the one-letter type prefix, the typed id,
the letter `v`, and the version. -/
def VersionedElementRef.chars (r : VersionedElementRef) : List Char :=
  r.type.shortChar :: (intChars r.typed_id ++ 'v' :: intChars r.version)

/-- Python `str.rindex`: index of the last occurrence of a character, `none`
(a `ValueError`) when absent. -/
def rindexOf (c : Char) : List Char → Option Nat
  | [] => none
  | a :: t =>
    match rindexOf c t with
    | some i => some (i + 1)
    | none => if a = c then some 0 else none

/-- `VersionedElementRef.from_str`: split at the last `v`, parse the type
letter, the typed id and the version; reject id `0` and non-positive
versions.  All raised `ValueError`s are modelled as `none`. -/
def VersionedElementRef.from_str (l : List Char) : Option VersionedElementRef :=
  match rindexOf 'v' l with
  | none => none
  | some i =>
    match l with
    | [] => none
    | c :: _ =>
      match ElementType.fromShortChar c, parseIntChars ((l.take i).drop 1),
          parseIntChars (l.drop (i + 1)) with
      | some t, some tid, some ver =>
          if tid = 0 then none
          else if ver ≤ 0 then none
          else some ⟨t, tid, ver⟩
      | _, _, _ => none

lemma rindexOf_eq_none {c : Char} {l : List Char} (h : c ∉ l) :
    rindexOf c l = none := by
  induction l with
  | nil => rfl
  | cons a t ih =>
    simp only [List.mem_cons, not_or] at h
    have hne : ¬ a = c := fun e => h.1 e.symm
    simp only [rindexOf, ih h.2, if_neg hne]

lemma rindexOf_append_last {xs ys : List Char} (h : 'v' ∉ ys) :
    rindexOf 'v' (xs ++ 'v' :: ys) = some xs.length := by
  induction xs with
  | nil => simp [rindexOf, rindexOf_eq_none h]
  | cons a t ih => simp [rindexOf, ih]

lemma not_v_mem_intChars (i : Int) : 'v' ∉ intChars i := by
  have hdig : ∀ n : Nat, 'v' ∉ natChars n := by
    intro n hmem
    have hall := natChars_all_digits n
    simp only [List.all_eq_true] at hall
    exact absurd (hall _ hmem) (by decide)
  unfold intChars
  split
  · simp only [List.mem_cons, not_or]
    exact ⟨by decide, hdig _⟩
  · exact hdig _

lemma ElementType.fromShortChar_shortChar (t : ElementType) :
    ElementType.fromShortChar t.shortChar = some t := by
  cases t <;> rfl

/-- C10: round-trip of the `VersionedElementRef` string representation.
For every ref with nonzero typed id and positive version,
`from_str (str ref)` returns the ref unchanged; and `from_str` rejects
(raises `ValueError` on) every input whose encoded id parses to `0` or whose
encoded version parses to a non-positive integer. -/
theorem versioned_element_ref_from_str_roundtrip :
    (∀ r : VersionedElementRef, r.typed_id ≠ 0 → 0 < r.version →
      VersionedElementRef.from_str r.chars = some r) ∧
    (∀ (l : List Char) (i : Nat), rindexOf 'v' l = some i →
      (parseIntChars ((l.take i).drop 1) = some 0 ∨
        ∃ z : Int, z ≤ 0 ∧ parseIntChars (l.drop (i + 1)) = some z) →
      VersionedElementRef.from_str l = none) := by
  constructor
  · intro r hid hver
    have hr : rindexOf 'v' r.chars = some ((intChars r.typed_id).length + 1) := by
      show rindexOf 'v' (r.type.shortChar :: (intChars r.typed_id ++ 'v' :: intChars r.version)) = _
      simp only [rindexOf, rindexOf_append_last (not_v_mem_intChars r.version)]
    unfold VersionedElementRef.from_str
    rw [hr]
    show (match r.chars with
      | [] => none
      | c :: _ =>
        match ElementType.fromShortChar c,
            parseIntChars ((r.chars.take ((intChars r.typed_id).length + 1)).drop 1),
            parseIntChars (r.chars.drop ((intChars r.typed_id).length + 1 + 1)) with
        | some t, some tid, some ver =>
            if tid = 0 then none else if ver ≤ 0 then none else some ⟨t, tid, ver⟩
        | _, _, _ => none) = some r
    have htake : (r.chars.take ((intChars r.typed_id).length + 1)).drop 1
        = intChars r.typed_id := by
      show ((r.type.shortChar :: (intChars r.typed_id ++ 'v' :: intChars r.version)).take
        ((intChars r.typed_id).length + 1)).drop 1 = _
      rw [List.take_succ_cons, List.drop_succ_cons, List.drop_zero,
        List.take_left]
    have hdrop : r.chars.drop ((intChars r.typed_id).length + 1 + 1)
        = intChars r.version := by
      show (r.type.shortChar :: (intChars r.typed_id ++ 'v' :: intChars r.version)).drop
        ((intChars r.typed_id).length + 1 + 1) = _
      rw [List.drop_succ_cons]
      have : intChars r.typed_id ++ 'v' :: intChars r.version
          = (intChars r.typed_id ++ ['v']) ++ intChars r.version := by simp
      rw [this]
      have hlen : (intChars r.typed_id).length + 1
          = (intChars r.typed_id ++ ['v']).length := by simp
      rw [hlen, List.drop_left]
    rw [htake, hdrop]
    show (match ElementType.fromShortChar r.type.shortChar,
        parseIntChars (intChars r.typed_id), parseIntChars (intChars r.version) with
      | some t, some tid, some ver =>
          if tid = 0 then none else if ver ≤ 0 then none else some ⟨t, tid, ver⟩
      | _, _, _ => none) = some r
    rw [ElementType.fromShortChar_shortChar, parseIntChars_intChars,
      parseIntChars_intChars]
    simp only [if_neg hid, if_neg (not_le.mpr hver)]
  · intro l i hri hbad
    unfold VersionedElementRef.from_str
    rw [hri]
    cases l with
    | nil => simp [rindexOf] at hri
    | cons c rest =>
      dsimp only
      rcases hbad with hid0 | ⟨z, hz, hzp⟩
      · rw [hid0]
        cases h1 : ElementType.fromShortChar c <;>
          cases h2 : parseIntChars ((c :: rest).drop (i + 1)) <;> simp
      · rw [hzp]
        cases h1 : ElementType.fromShortChar c <;>
          cases h2 : parseIntChars (((c :: rest).take i).drop 1) <;>
            simp [if_neg, hz]

/-- Witness for C10 at concrete inputs: the ref `n123v1` round-trips, and the
string `n0v1` (encoded id `0`) is rejected. -/
theorem versioned_element_ref_from_str_roundtrip_witness :
    VersionedElementRef.from_str (VersionedElementRef.chars ⟨.node, 123, 1⟩)
      = some ⟨.node, 123, 1⟩ ∧
    VersionedElementRef.from_str ['n', '0', 'v', '1'] = none :=
  ⟨versioned_element_ref_from_str_roundtrip.1 ⟨.node, 123, 1⟩ (by decide) (by decide),
   versioned_element_ref_from_str_roundtrip.2 ['n', '0', 'v', '1'] 2 (by decide)
     (Or.inl (by decide))⟩

/-! ### Data model of the optimistic-diff applier
(`app/services/optimistic_diff/apply.py`)

The database is embedded as an explicit value: the element table is a
`List Element` of committed revisions and the changeset row is a `Changeset`.
Python object mutation becomes functional record update; `asyncio` tasks are
sequenced (their results are joined before the transaction commits, and any
raised `OptimisticDiffError` aborts the whole transaction, so the committed
effect is the same). -/

/-- `ElementRef`: version-independent element identity; negative ids are
batch-local placeholders. -/
structure ElementRef where
  type : ElementType
  id : Int
deriving DecidableEq

/-- `ElementMember` row: the referenced type and id, the role, and the owning
revision's sequence id (assigned during apply). -/
structure ElementMember where
  type : ElementType
  id : Int
  role : String
  sequence_id : Option Int
deriving DecidableEq

/-- `Element` revision row.  `sequence_id`, `created_at` and
`next_sequence_id` are `none` on drafts and are assigned during apply. -/
structure Element where
  type : ElementType
  id : Int
  version : Int
  visible : Bool
  members : List ElementMember
  sequence_id : Option Int
  next_sequence_id : Option Int
  created_at : Option Int
deriving DecidableEq

/-- Association-list lookup (Python `dict.get`); the most recent binding is
at the head. -/
def alookup {α β : Type} [DecidableEq α] : List (α × β) → α → Option β
  | [], _ => none
  | p :: t, a => if a = p.1 then some p.2 else alookup t a

/-- Apply `f` to the element at one position of a list (in-place object
mutation of an already-processed element). -/
def modifyAt {α : Type} (f : α → α) : Nat → List α → List α
  | _, [] => []
  | 0, a :: t => f a :: t
  | n + 1, a :: t => a :: modifyAt f n t

/-- Maximum of a list of integers, `0` when empty — the semantics of
`ElementRepository.get_last_typed_id_by_type` (`ORDER BY … DESC LIMIT 1`,
`0` if no row) and, modelled from the spec, of the current global maximum
sequence id. -/
def maxOr0 : List Int → Int
  | [] => 0
  | x :: t => t.foldl max x

/-- Current maximum typed id per type (`ElementRepository.
get_last_typed_id_by_type`; `ElementQuery.get_current_ids` in apply). -/
def currentTypedIds (store : List Element) (t : ElementType) : Int :=
  maxOr0 ((store.filter (fun e => decide (e.type = t))).map (fun e => e.id))

/-- Modelled from the spec: `ElementQuery.get_current_sequence_id` (not among
the provided sources) returns the current global maximum sequence id, `0`
when the table is empty. -/
def currentSequenceIdOf (store : List Element) : Int :=
  maxOr0 (store.filterMap (fun e => e.sequence_id))

/-- Mutable state of the first loop of `_update_elements`: the processed
elements in batch order, `prev_map` (ref ↦ position of its latest processed
element), `update_type_ids`, `assigned_id_map`, and the per-type id counter
`current_id_map`. -/
structure LoopState where
  done : List Element
  prevIdx : List (ElementRef × Nat)
  updateTypeIds : List (ElementType × Int)
  assignedIdMap : List (ElementRef × Int)
  currentIdMap : ElementType → Int

/-- The `next_sequence_id` half of a loop iteration of `_update_elements`:
link the in-batch predecessor locally, or record the element for the remote
batched update when its version is above 1. -/
def applyStepLink (seq : Int) (st : LoopState) (element : Element) (ref : ElementRef) :
    LoopState :=
  match alookup st.prevIdx ref with
  | some i =>
      { st with done := modifyAt (fun e => { e with next_sequence_id := some seq }) i st.done }
  | none =>
      if 1 < element.version then
        { st with updateTypeIds := st.updateTypeIds ++ [(element.type, element.id)] }
      else st

/-- The id-assignment half of a loop iteration of `_update_elements`:
resolve a placeholder id through `assigned_id_map`, advancing the per-type
counter on first use. -/
def applyStepAssign (st : LoopState) (element : Element) (ref : ElementRef)
    (e1 : Element) : Element × LoopState :=
  if e1.id < 0 then
    match alookup st.assignedIdMap ref with
    | some a => ({ e1 with id := a }, st)
    | none =>
        let a := st.currentIdMap element.type + 1
        ({ e1 with id := a },
         { st with
            assignedIdMap := st.assignedIdMap ++ [(ref, a)],
            currentIdMap := fun t => if t = element.type then a else st.currentIdMap t })
  else (e1, st)

/-- One iteration of the first loop of `_update_elements`: assign the
sequence id and creation time, link the in-batch predecessor (or record the
stored predecessor for the batched update), and resolve a placeholder id
through `assigned_id_map`, advancing the per-type counter on first use. -/
def applyStep (now seq : Int) (st : LoopState) (p : Element × ElementRef) : LoopState :=
  let e1 : Element := { p.1 with sequence_id := some seq, created_at := some now }
  let st1 : LoopState := applyStepLink seq st p.1 p.2
  let r : Element × LoopState := applyStepAssign st1 p.1 p.2 e1
  { r.2 with
      done := r.2.done ++ [r.1],
      prevIdx := (p.2, r.2.done.length) :: r.2.prevIdx }

/-- The first loop of `_update_elements`
(`enumerate(elements, current_sequence_id + 1)`). -/
def processLoop (now : Int) : LoopState → Int → List (Element × ElementRef) → LoopState
  | st, _, [] => st
  | st, seq, p :: t => processLoop now (applyStep now seq st p) (seq + 1) t

/-- Run the first loop of `_update_elements` from the freshly queried
state. -/
def processElements (curSeq : Int) (curIds : ElementType → Int) (now : Int)
    (elements : List (Element × ElementRef)) : LoopState :=
  processLoop now ⟨[], [], [], [], curIds⟩ (curSeq + 1) elements

/-- Sequence the effects of a fallible function over a list (`none` models a
raised exception). -/
def omapList {α β : Type} (f : α → Option β) : List α → Option (List β)
  | [] => some []
  | a :: t =>
    match f a, omapList f t with
    | some b, some bt => some (b :: bt)
    | _, _ => none

/-- The member half of the second loop of `_update_elements`: stamp the
owner's sequence id and resolve a negative member id through
`assigned_id_map` (a missing key is a raised `KeyError`, modelled `none`). -/
def resolveMember (assigned : List (ElementRef × Int)) (seq : Option Int)
    (m : ElementMember) : Option ElementMember :=
  let m1 : ElementMember := { m with sequence_id := seq }
  if m1.id < 0 then
    match alookup assigned ⟨m1.type, m1.id⟩ with
    | some a => some { m1 with id := a }
    | none => none
  else some m1

/-- The second loop of `_update_elements`, per element. -/
def resolveMembers (assigned : List (ElementRef × Int)) (e : Element) : Option Element :=
  (omapList (resolveMember assigned e.sequence_id) e.members).map
    (fun ms => { e with members := ms })

/-- `_update_elements` up to the database write: the fully processed insert
rows (members resolved) and `update_type_ids`. -/
def updateElementsPrepared (curSeq : Int) (curIds : ElementType → Int) (now : Int)
    (elements : List (Element × ElementRef)) :
    Option (List Element × List (ElementType × Int)) :=
  (omapList (resolveMembers (processElements curSeq curIds now elements).assignedIdMap)
      (processElements curSeq curIds now elements).done).map
    (fun es => (es, (processElements curSeq curIds now elements).updateTypeIds))

/-- The row with the smallest version among a list (`ORDER BY version ASC
LIMIT 1`). -/
def minByVersion : List Element → Option Element
  | [] => none
  | e :: t =>
    match minByVersion t with
    | none => some e
    | some m => if e.version ≤ m.version then some e else some m

/-- The scalar subquery of `_update_elements_db`: the sequence id of the
lowest-higher-version revision of the same ref in the flushed table. -/
def lowestHigherVersionSeq (table : List Element) (t : ElementType) (i v : Int) :
    Option Int :=
  (minByVersion (table.filter
    (fun e => decide (e.type = t) && decide (e.id = i) && decide (v < e.version)))).bind
    (fun e => e.sequence_id)

/-- The `WHERE` clause of the batched update of `_update_elements_db`:
sequence id at most the pre-batch current one, null `next_sequence_id`, and
(type, id) listed in `update_type_ids`. -/
def matchesUpdateCond (curSeq : Int) (uti : List (ElementType × Int)) (e : Element) : Bool :=
  (match e.sequence_id with
    | some s => decide (s ≤ curSeq)
    | none => false)
  && decide (e.next_sequence_id = none)
  && uti.any (fun p => decide (p.1 = e.type) && decide (p.2 = e.id))

/-- The per-row effect of the batched `UPDATE` of `_update_elements_db`. -/
def linkFn (curSeq : Int) (uti : List (ElementType × Int)) (table : List Element)
    (e : Element) : Element :=
  if matchesUpdateCond curSeq uti e then
    { e with next_sequence_id := lowestHigherVersionSeq table e.type e.id e.version }
  else e

/-- The batched `UPDATE` of `_update_elements_db`, run against the flushed
table (stored rows followed by the freshly inserted rows). -/
def dbLinkUpdate (curSeq : Int) (uti : List (ElementType × Int))
    (table : List Element) : List Element :=
  table.map (linkFn curSeq uti table)

/-! ### The three checks and the changeset update -/

/-- Modelled from the spec: a versioned ref is still the current stored
revision of its ref when its row is stored with a null `next_sequence_id`. -/
def isCurrentRevision (store : List Element) (v : VersionedElementRef) : Bool :=
  store.any (fun e =>
    decide (e.type = v.type) && decide (e.id = v.typed_id)
      && decide (e.version = v.version) && decide (e.next_sequence_id = none))

/-- Modelled from the spec: `ElementQuery.check_is_latest` (not among the
provided sources) — every given versioned ref must still be the current
stored revision of its ref. -/
def checkIsLatest (store : List Element) (vrefs : List VersionedElementRef) : Bool :=
  vrefs.all (isCurrentRevision store)

/-- `_check_elements_latest`: build the versioned refs from the entries of
`element_state` whose remote revision is non-null and require each to still
be latest.  An entry's remote revision is the last-committed revision of the
ref observed at prepare time (`ElementStateEntry.remote`), `none` if the ref
did not exist then. -/
def checkElementsLatest (store : List Element)
    (element_state : List (ElementRef × Option Element)) : Bool :=
  checkIsLatest store (element_state.filterMap
    (fun p => p.2.map (fun r => ⟨p.1.type, p.1.id, r.version⟩)))

/-- Modelled from the spec: `ElementQuery.check_is_unreferenced` (not among
the provided sources) — no revision committed after the given sequence id
may list any of the given refs among its members. -/
def checkIsUnreferenced (store : List Element) (refs : List ElementRef)
    (afterSeq : Int) : Bool :=
  store.all (fun e =>
    match e.sequence_id with
    | some s =>
        if afterSeq < s then
          e.members.all (fun m => !(refs.any (fun r => decide (r = ⟨m.type, m.id⟩))))
        else true
    | none => true)

/-- Changeset row.  Modelled from the spec: the changeset module is not
among the provided sources; it carries the last-modified time, the optional
closing time, and the cumulative element count. -/
structure Changeset where
  id : Int
  updated_at : Int
  closed_at : Option Int
  size : Int
deriving DecidableEq

/-- Modelled from the spec: `Changeset.auto_close_on_size` — once the
cumulative element count exceeds the role-dependent size limit, mark the
changeset closed at the current commit time. -/
def autoCloseOnSize (maxSize now : Int) (c : Changeset) : Changeset :=
  if maxSize < c.size then { c with closed_at := some now } else c

/-- `_update_changeset`: the stored row's `updated_at` must still equal the
value observed at prepare time (else `OptimisticDiffError`, modelled
`none`); on success set `updated_at` to the commit time and evaluate
auto-close. -/
def updateChangesetRow (stored_updated_at now maxSize : Int)
    (changeset : Changeset) : Option Changeset :=
  if changeset.updated_at ≠ stored_updated_at then none
  else some (autoCloseOnSize maxSize now { changeset with updated_at := now })

/-! ### The applier -/

/-- The conflict and failure kinds raised inside one apply.  The first three
are `OptimisticDiffError`s; `memberPlaceholderMissing` is the `KeyError` of
an unresolvable member placeholder. -/
inductive ApplyError where
  | elementOutdated
  | elementReferenced
  | changesetOutdated
  | memberPlaceholderMissing
deriving DecidableEq

/-- The prepare result consumed by `OptimisticDiffApply.apply`
(`OptimisticDiffPrepare`): the staged `(element, original ref)` pairs in
batch order, the `element_state` snapshot, the reference-check set, the
snapshot sequence point, and the target changeset as observed at prepare
time. -/
structure OptimisticDiffPrepare where
  apply_elements : List (Element × ElementRef)
  element_state : List (ElementRef × Option Element)
  reference_check_element_refs : List ElementRef
  at_sequence_id : Int
  changeset : Changeset

/-- The database state touched by one apply: the element table and the
target changeset's stored row. -/
structure DbState where
  store : List Element
  changesetRow : Changeset
deriving DecidableEq

/-- `OptimisticDiffApply.apply`: empty batches return at once; otherwise all
checks must pass and the processed revisions are inserted and linked inside
one transaction.  A raised error aborts the transaction, so the error
branches leave the database state untouched.  The returned association list
pairs each original ref with its new revision in batch order (the code's
`assigned_ref_map` groups the same pairs by ref). -/
def applyModel (maxSize now : Int) (prepare : OptimisticDiffPrepare) (db : DbState) :
    Except ApplyError (DbState × List (ElementRef × Element)) :=
  if prepare.apply_elements.isEmpty then .ok (db, [])
  else if !(checkElementsLatest db.store prepare.element_state) then
    .error .elementOutdated
  else if !prepare.reference_check_element_refs.isEmpty
      && !(checkIsUnreferenced db.store prepare.reference_check_element_refs
            prepare.at_sequence_id) then
    .error .elementReferenced
  else
    match updateChangesetRow db.changesetRow.updated_at now maxSize prepare.changeset with
    | none => .error .changesetOutdated
    | some newCs =>
      match updateElementsPrepared (currentSequenceIdOf db.store)
          (currentTypedIds db.store) now prepare.apply_elements with
      | none => .error .memberPlaceholderMissing
      | some (inserted, uti) =>
          .ok ({ store := dbLinkUpdate (currentSequenceIdOf db.store) uti
                   (db.store ++ inserted),
                 changesetRow := newCs },
               (prepare.apply_elements.map (fun p => p.2)).zip inserted)

/-! ### List utilities used by the proofs -/

lemma get?_append_l {α : Type} {l1 l2 : List α} {i : Nat} (h : i < l1.length) :
    (l1 ++ l2).get? i = l1.get? i := by
  induction l1 generalizing i with
  | nil => simp at h
  | cons a t ih =>
    cases i with
    | zero => rfl
    | succ n => exact ih (by simpa using h)

lemma get?_append_r {α : Type} (l1 l2 : List α) (d : Nat) :
    (l1 ++ l2).get? (l1.length + d) = l2.get? d := by
  induction l1 with
  | nil => simp
  | cons a t ih => simpa [Nat.succ_add] using ih

lemma alookup_append {α β : Type} [DecidableEq α] (m1 m2 : List (α × β)) (a : α) :
    alookup (m1 ++ m2) a = (alookup m1 a).or (alookup m2 a) := by
  induction m1 with
  | nil => simp [alookup]
  | cons p t ih =>
    by_cases h : a = p.1
    · simp [alookup, h]
    · simp [alookup, h, ih]

lemma modifyAt_length {α : Type} (f : α → α) (i : Nat) (l : List α) :
    (modifyAt f i l).length = l.length := by
  induction l generalizing i with
  | nil => cases i <;> rfl
  | cons a t ih => cases i <;> simp [modifyAt, ih]

lemma modifyAt_get?_ne {α : Type} (f : α → α) (i j : Nat) (l : List α) (h : i ≠ j) :
    (modifyAt f i l).get? j = l.get? j := by
  induction l generalizing i j with
  | nil => cases i <;> rfl
  | cons a t ih =>
    cases i with
    | zero => cases j with
      | zero => exact absurd rfl h
      | succ m => rfl
    | succ n => cases j with
      | zero => rfl
      | succ m => exact ih n m (fun e => h (by rw [e]))

lemma modifyAt_get?_eq {α : Type} (f : α → α) (i : Nat) (l : List α) (h : i < l.length) :
    (modifyAt f i l).get? i = (l.get? i).map f := by
  induction l generalizing i with
  | nil => simp at h
  | cons a t ih =>
    cases i with
    | zero => rfl
    | succ n => exact ih n (by simpa using h)

lemma le_foldl_max (l : List Int) {a b : Int} (h : a ≤ b) : a ≤ l.foldl max b := by
  induction l generalizing b with
  | nil => exact h
  | cons x t ih => exact ih (le_trans h (le_max_left b x))

lemma mem_le_foldl_max {l : List Int} {x : Int} (h : x ∈ l) (a : Int) :
    x ≤ l.foldl max a := by
  induction l generalizing a with
  | nil => simp at h
  | cons y t ih =>
    rcases List.mem_cons.mp h with rfl | hx
    · exact le_foldl_max t (le_max_right a x)
    · exact ih hx (max a y)

lemma foldl_max_le {l : List Int} {a b : Int} (hl : ∀ x ∈ l, x ≤ b) (ha : a ≤ b) :
    l.foldl max a ≤ b := by
  induction l generalizing a with
  | nil => exact ha
  | cons x t ih =>
    exact ih (fun y hy => hl y (List.mem_cons_of_mem x hy))
      (max_le ha (hl x (List.mem_cons_self x t)))

lemma mem_le_maxOr0 {l : List Int} {x : Int} (h : x ∈ l) : x ≤ maxOr0 l := by
  cases l with
  | nil => simp at h
  | cons y t =>
    rcases List.mem_cons.mp h with rfl | hx
    · exact le_foldl_max t le_rfl
    · exact mem_le_foldl_max hx y

lemma maxOr0_le {l : List Int} {b : Int} (hl : ∀ x ∈ l, x ≤ b) (h0 : 0 ≤ b) :
    maxOr0 l ≤ b := by
  cases l with
  | nil => exact h0
  | cons y t =>
    exact foldl_max_le (fun x hx => hl x (List.mem_cons_of_mem y hx))
      (hl y (List.mem_cons_self y t))

lemma maxOr0_eq_of_mem {l : List Int} {a : Int} (hmem : a ∈ l)
    (hub : ∀ x ∈ l, x ≤ a) : maxOr0 l = a := by
  refine le_antisymm ?_ (mem_le_maxOr0 hmem)
  cases l with
  | nil => simp at hmem
  | cons y t =>
    exact foldl_max_le (fun x hx => hub x (List.mem_cons_of_mem y hx))
      (hub y (List.mem_cons_self y t))

/-! ### Occurrence positions of a ref in the batch -/

/-- Positions (offset by `b`) at which `r` occurs in the list. -/
def occPositionsFrom (r : ElementRef) : List ElementRef → Nat → List Nat
  | [], _ => []
  | a :: t, b => (if a = r then [b] else []) ++ occPositionsFrom r t (b + 1)

/-- The entry directly after `k` in a scan list. -/
def succIn : List Nat → Nat → Option Nat
  | [], _ => none
  | [_], _ => none
  | a :: b :: t, k => if k = a then some b else succIn (b :: t) k

/-- Position of the next occurrence (in batch order) of the ref at position
`k`, used to describe the in-batch `next_sequence_id` links. -/
def nextAfter (refs : List ElementRef) (k : Nat) : Option Nat :=
  match refs.get? k with
  | none => none
  | some r => succIn (occPositionsFrom r refs 0) k

lemma occPositionsFrom_append_singleton (r r0 : ElementRef) (l : List ElementRef) (b : Nat) :
    occPositionsFrom r (l ++ [r0]) b
      = occPositionsFrom r l b ++ (if r0 = r then [b + l.length] else []) := by
  induction l generalizing b with
  | nil => simp [occPositionsFrom]
  | cons a t ih =>
    show (if a = r then [b] else []) ++ occPositionsFrom r (t ++ [r0]) (b + 1)
        = ((if a = r then [b] else []) ++ occPositionsFrom r t (b + 1))
          ++ (if r0 = r then [b + (t.length + 1)] else [])
    rw [ih (b + 1), List.append_assoc]
    have he : b + 1 + t.length = b + (t.length + 1) := by omega
    rw [he]

lemma occPositionsFrom_bounds {r : ElementRef} {l : List ElementRef} {b k : Nat}
    (h : k ∈ occPositionsFrom r l b) : b ≤ k ∧ k < b + l.length := by
  induction l generalizing b with
  | nil => simp [occPositionsFrom] at h
  | cons a t ih =>
    simp only [occPositionsFrom, List.mem_append] at h
    rcases h with h | h
    · rcases (by split at h <;> simp_all : k = b) with rfl
      simp
    · have := ih h
      simp only [List.length_cons]
      omega

lemma occPositionsFrom_get? {r : ElementRef} {l : List ElementRef} {b k : Nat}
    (h : k ∈ occPositionsFrom r l b) : l.get? (k - b) = some r := by
  induction l generalizing b with
  | nil => simp [occPositionsFrom] at h
  | cons a t ih =>
    simp only [occPositionsFrom, List.mem_append] at h
    rcases h with h | h
    · have hb : k = b := by split at h <;> simp_all
      have ha : a = r := by by_contra hne; simp [hne] at h
      simp [hb, ha]
    · have hbk := occPositionsFrom_bounds h
      have := ih h
      have hk : k - b = (k - (b + 1)) + 1 := by omega
      rw [hk]
      simpa using this

lemma mem_occPositionsFrom {r : ElementRef} {l : List ElementRef} {b d : Nat}
    (h : l.get? d = some r) : (b + d) ∈ occPositionsFrom r l b := by
  induction l generalizing b d with
  | nil => simp at h
  | cons a t ih =>
    cases d with
    | zero =>
      have : a = r := by simpa using h
      simp [occPositionsFrom, this]
    | succ m =>
      have := ih (b := b + 1) (by simpa using h)
      simp only [occPositionsFrom, List.mem_append]
      right
      have he : b + (m + 1) = (b + 1) + m := by omega
      rw [he]
      exact this

lemma occPositionsFrom_pairwise (r : ElementRef) (l : List ElementRef) (b : Nat) :
    (occPositionsFrom r l b).Pairwise (· < ·) := by
  induction l generalizing b with
  | nil => simp [occPositionsFrom]
  | cons a t ih =>
    simp only [occPositionsFrom]
    split
    · simp only [List.singleton_append, List.pairwise_cons]
      exact ⟨fun k hk => (occPositionsFrom_bounds hk).1, ih (b + 1)⟩
    · simpa using ih (b + 1)

lemma succIn_append_of_some {P : List Nat} {k j : Nat} (n : Nat)
    (h : succIn P k = some j) : succIn (P ++ [n]) k = some j := by
  induction P with
  | nil => simp [succIn] at h
  | cons a t iht =>
    cases t with
    | nil => simp [succIn] at h
    | cons b t2 =>
      simp only [succIn] at h
      by_cases hk : k = a
      · simp only [hk] at h ⊢
        simpa [succIn] using h
      · simp only [List.cons_append, succIn, if_neg hk] at h ⊢
        exact iht h

lemma succIn_append_last {P : List Nat} {k : Nat} (n : Nat)
    (hmem : k ∈ P) (hnone : succIn P k = none) (hpw : P.Pairwise (· < ·)) :
    succIn (P ++ [n]) k = some n := by
  induction P with
  | nil => simp at hmem
  | cons a t iht =>
    cases t with
    | nil =>
      have : k = a := by simpa using hmem
      simp [succIn, this]
    | cons b t2 =>
      simp only [succIn] at hnone
      by_cases hk : k = a
      · simp [hk] at hnone
      · rw [if_neg hk] at hnone
        simp only [List.cons_append, succIn, if_neg hk]
        exact iht (by simpa [hk] using hmem) hnone (List.Pairwise.of_cons hpw)

lemma succIn_none_of_not_mem {P : List Nat} {k : Nat} (h : k ∉ P) :
    succIn P k = none := by
  induction P with
  | nil => rfl
  | cons a t iht =>
    cases t with
    | nil => rfl
    | cons b t2 =>
      simp only [List.mem_cons, not_or] at h
      simp only [succIn, if_neg h.1]
      exact iht (by simp only [List.mem_cons, not_or]; exact ⟨h.2.1, h.2.2⟩)

lemma mem_of_getLast?_own {α : Type} : ∀ {l : List α} {a : α}, l.getLast? = some a → a ∈ l
  | [], _, h => by simp at h
  | [x], a, h => by
      simp only [List.getLast?_singleton, Option.some.injEq] at h
      simp [h]
  | x :: y :: t, a, h => by
      rw [List.getLast?_cons_cons] at h
      exact List.mem_cons_of_mem _ (mem_of_getLast?_own h)

lemma succIn_last {P : List Nat} {i : Nat} (hpw : P.Pairwise (· < ·))
    (h : P.getLast? = some i) : succIn P i = none := by
  induction P with
  | nil => rfl
  | cons a t iht =>
    cases t with
    | nil => rfl
    | cons b t2 =>
      rw [List.getLast?_cons_cons] at h
      have hmem : i ∈ b :: t2 := mem_of_getLast?_own h
      have ha : a < i := (List.pairwise_cons.mp hpw).1 i hmem
      simp only [succIn, if_neg (by omega : ¬ i = a)]
      exact iht (List.Pairwise.of_cons hpw) h

lemma succIn_cases {P : List Nat} {k : Nat} (hpw : P.Pairwise (· < ·)) (hmem : k ∈ P) :
    (P.getLast? = some k ∧ succIn P k = none) ∨ (∃ j, succIn P k = some j) := by
  induction P with
  | nil => simp at hmem
  | cons a t iht =>
    cases t with
    | nil =>
      have : k = a := by simpa using hmem
      subst this
      exact Or.inl ⟨by simp, rfl⟩
    | cons b t2 =>
      by_cases hk : k = a
      · exact Or.inr ⟨b, by simp [succIn, hk]⟩
      · have hmem2 : k ∈ b :: t2 := by simpa [hk] using hmem
        rcases iht (List.Pairwise.of_cons hpw) hmem2 with ⟨h1, h2⟩ | ⟨j, hj⟩
        · exact Or.inl ⟨by rw [List.getLast?_cons_cons]; exact h1,
            by simp [succIn, if_neg hk]; exact h2⟩
        · exact Or.inr ⟨j, by simp [succIn, if_neg hk]; exact hj⟩

lemma alookup_mem {α β : Type} [DecidableEq α] {m : List (α × β)} {a : α} {b : β}
    (h : alookup m a = some b) : (a, b) ∈ m := by
  induction m with
  | nil => simp [alookup] at h
  | cons p t ih =>
    by_cases he : a = p.1
    · simp only [alookup, if_pos he] at h
      have hp : (a, b) = p := by
        obtain ⟨p1, p2⟩ := p
        simp only [Option.some.injEq] at h
        simp_all
      rw [hp]
      exact List.mem_cons_self p t
    · simp only [alookup, if_neg he] at h
      exact List.mem_cons_of_mem p (ih h)

lemma get?_mem_own {α : Type} {l : List α} {n : Nat} {a : α} (h : l.get? n = some a) :
    a ∈ l := by
  induction l generalizing n with
  | nil => simp at h
  | cons x t ih =>
    cases n with
    | zero => simp at h; simp [h]
    | succ m => exact List.mem_cons_of_mem x (ih (by simpa using h))

lemma get?_some_of_lt {α : Type} {l : List α} {n : Nat} (h : n < l.length) :
    ∃ a, l.get? n = some a := by
  induction l generalizing n with
  | nil => simp at h
  | cons x t ih =>
    cases n with
    | zero => exact ⟨x, rfl⟩
    | succ m => exact ih (by simpa using h)

/-- The contents of `update_type_ids` accumulated over a batch prefix: one
`(type, id)` entry per element that is the first occurrence of its ref
(relative to `seen` and the earlier prefix) and has version above 1. -/
def utiOf (seen : List ElementRef) : List (Element × ElementRef) → List (ElementType × Int)
  | [] => []
  | p :: t =>
    (if p.2 ∈ seen ∨ p.1.version ≤ 1 then [] else [(p.1.type, p.1.id)])
      ++ utiOf (p.2 :: seen) t

lemma utiOf_append_singleton (seen : List ElementRef) (l : List (Element × ElementRef))
    (p : Element × ElementRef) :
    utiOf seen (l ++ [p]) = utiOf seen l ++
      (if p.2 ∈ seen ∨ p.2 ∈ l.map Prod.snd ∨ p.1.version ≤ 1 then []
       else [(p.1.type, p.1.id)]) := by
  induction l generalizing seen with
  | nil => simp [utiOf]
  | cons q t ih =>
    show (if q.2 ∈ seen ∨ q.1.version ≤ 1 then [] else [(q.1.type, q.1.id)])
          ++ utiOf (q.2 :: seen) (t ++ [p]) = _
    rw [ih (q.2 :: seen)]
    have hc : (p.2 ∈ q.2 :: seen ∨ p.2 ∈ t.map Prod.snd ∨ p.1.version ≤ 1)
        ↔ (p.2 ∈ seen ∨ p.2 ∈ (q :: t).map Prod.snd ∨ p.1.version ≤ 1) := by
      simp only [List.mem_cons, List.map_cons]
      tauto
    simp only [hc]
    show _ = ((if q.2 ∈ seen ∨ q.1.version ≤ 1 then [] else [(q.1.type, q.1.id)])
        ++ utiOf (q.2 :: seen) t) ++ _
    rw [List.append_assoc]

lemma get?_map_own {α β : Type} (f : α → β) (l : List α) (n : Nat) :
    (l.map f).get? n = (l.get? n).map f := by
  induction l generalizing n with
  | nil => cases n <;> rfl
  | cons a t ih => cases n with
    | zero => rfl
    | succ m => exact ih m

lemma occPositionsFrom_eq_nil_iff {r : ElementRef} {l : List ElementRef} {b : Nat} :
    occPositionsFrom r l b = [] ↔ r ∉ l := by
  induction l generalizing b with
  | nil => simp [occPositionsFrom]
  | cons a t ih =>
    simp only [occPositionsFrom, List.append_eq_nil, List.mem_cons, not_or]
    constructor
    · rintro ⟨h1, h2⟩
      refine ⟨?_, (ih).mp h2⟩
      intro he
      rw [he] at h1
      simp at h1
    · rintro ⟨h1, h2⟩
      have hne : ¬ a = r := fun e => h1 e.symm
      exact ⟨by rw [if_neg hne], (ih (b := b + 1)).mpr h2⟩

lemma succIn_append_self_not_mem {P : List Nat} {k : Nat} (h : k ∉ P) :
    succIn (P ++ [k]) k = none := by
  induction P with
  | nil => rfl
  | cons a t iht =>
    simp only [List.mem_cons, not_or] at h
    cases t with
    | nil => simp [succIn, h.1]
    | cons b t2 =>
      simp only [List.cons_append, succIn, if_neg h.1]
      exact iht h.2

lemma alookup_append_some {α β : Type} [DecidableEq α] {m m2 : List (α × β)} {a : α}
    {v : β} (h : alookup m a = some v) : alookup (m ++ m2) a = some v := by
  rw [alookup_append, h]
  rfl

/-- The id given to the processed element of one loop iteration. -/
def stepAsgId (st : LoopState) (element : Element) (ref : ElementRef) : Int :=
  if element.id < 0 then
    match alookup st.assignedIdMap ref with
    | some a => a
    | none => st.currentIdMap element.type + 1
  else element.id

lemma applyStep_done (now seq : Int) (st : LoopState) (p : Element × ElementRef) :
    (applyStep now seq st p).done
      = (match alookup st.prevIdx p.2 with
         | some i => modifyAt (fun e => { e with next_sequence_id := some seq }) i st.done
         | none => st.done)
        ++ [{ p.1 with
                sequence_id := some seq,
                created_at := some now,
                id := stepAsgId st p.1 p.2 }] := by
  unfold applyStep applyStepLink applyStepAssign stepAsgId
  rcases hprev : alookup st.prevIdx p.2 with _ | i <;>
    by_cases hneg : p.1.id < 0 <;>
      rcases hasg : alookup st.assignedIdMap p.2 with _ | a <;>
        by_cases hver : 1 < p.1.version <;>
          simp [hprev, hneg, hasg, hver]

lemma applyStep_prevIdx (now seq : Int) (st : LoopState) (p : Element × ElementRef) :
    (applyStep now seq st p).prevIdx = (p.2, st.done.length) :: st.prevIdx := by
  unfold applyStep applyStepLink applyStepAssign
  rcases hprev : alookup st.prevIdx p.2 with _ | i <;>
    by_cases hneg : p.1.id < 0 <;>
      rcases hasg : alookup st.assignedIdMap p.2 with _ | a <;>
        by_cases hver : 1 < p.1.version <;>
          simp [hprev, hneg, hasg, hver, modifyAt_length]

lemma applyStep_uti (now seq : Int) (st : LoopState) (p : Element × ElementRef) :
    (applyStep now seq st p).updateTypeIds
      = st.updateTypeIds
        ++ (match alookup st.prevIdx p.2 with
            | some _ => []
            | none => if 1 < p.1.version then [(p.1.type, p.1.id)] else []) := by
  unfold applyStep applyStepLink applyStepAssign
  rcases hprev : alookup st.prevIdx p.2 with _ | i <;>
    by_cases hneg : p.1.id < 0 <;>
      rcases hasg : alookup st.assignedIdMap p.2 with _ | a <;>
        by_cases hver : 1 < p.1.version <;>
          simp [hprev, hneg, hasg, hver]

lemma applyStep_assignedIdMap (now seq : Int) (st : LoopState) (p : Element × ElementRef) :
    (applyStep now seq st p).assignedIdMap
      = if p.1.id < 0 ∧ alookup st.assignedIdMap p.2 = none
        then st.assignedIdMap ++ [(p.2, st.currentIdMap p.1.type + 1)]
        else st.assignedIdMap := by
  unfold applyStep applyStepLink applyStepAssign
  rcases hprev : alookup st.prevIdx p.2 with _ | i <;>
    by_cases hneg : p.1.id < 0 <;>
      rcases hasg : alookup st.assignedIdMap p.2 with _ | a <;>
        by_cases hver : 1 < p.1.version <;>
          simp [hprev, hneg, hasg, hver]

lemma applyStep_currentIdMap (now seq : Int) (st : LoopState) (p : Element × ElementRef) :
    (applyStep now seq st p).currentIdMap
      = if p.1.id < 0 ∧ alookup st.assignedIdMap p.2 = none
        then (fun t => if t = p.1.type then st.currentIdMap p.1.type + 1
              else st.currentIdMap t)
        else st.currentIdMap := by
  unfold applyStep applyStepLink applyStepAssign
  rcases hprev : alookup st.prevIdx p.2 with _ | i <;>
    by_cases hneg : p.1.id < 0 <;>
      rcases hasg : alookup st.assignedIdMap p.2 with _ | a <;>
        by_cases hver : 1 < p.1.version <;>
          simp [hprev, hneg, hasg, hver]

/-- All book-keeping facts maintained by the first loop of
`_update_elements` after processing the prefix `pre` of the batch, starting
from the per-type id map `ids0` and assigning sequence ids from `s0`. -/
structure LoopInv (ids0 : ElementType → Int) (now s0 : Int)
    (pre : List (Element × ElementRef)) (st : LoopState) : Prop where
  len : st.done.length = pre.length
  prev : ∀ r : ElementRef,
    alookup st.prevIdx r = (occPositionsFrom r (pre.map Prod.snd) 0).getLast?
  uti : st.updateTypeIds = utiOf [] pre
  cur_ge : ∀ t, ids0 t ≤ st.currentIdMap t
  asg_bounds : ∀ q ∈ st.assignedIdMap,
    ids0 q.1.type < q.2 ∧ q.2 ≤ st.currentIdMap q.1.type
  asg_occurs : ∀ q ∈ st.assignedIdMap, q.1 ∈ pre.map Prod.snd
  asg_inj : ∀ q1 ∈ st.assignedIdMap, ∀ q2 ∈ st.assignedIdMap,
    q1.1.type = q2.1.type → q1.1 ≠ q2.1 → q1.2 ≠ q2.2
  not_asg : ∀ r : ElementRef, r ∉ pre.map Prod.snd → alookup st.assignedIdMap r = none
  shape : ∀ (k : Nat) (q : Element × ElementRef), pre.get? k = some q → ∃ v : Int,
    st.done.get? k = some { q.1 with
        id := v,
        sequence_id := some (s0 + (k : Int)),
        created_at := some now,
        next_sequence_id :=
          match nextAfter (pre.map Prod.snd) k with
          | some j => some (s0 + (j : Int))
          | none => q.1.next_sequence_id } ∧
      (q.1.id < 0 → alookup st.assignedIdMap q.2 = some v) ∧
      (0 ≤ q.1.id → v = q.1.id)

lemma get?_some_lt {α : Type} {l : List α} {n : Nat} {a : α} (h : l.get? n = some a) :
    n < l.length := by
  induction l generalizing n with
  | nil => simp at h
  | cons x t ih =>
    cases n with
    | zero => simp
    | succ m =>
      have := ih (by simpa using h)
      simpa using this

lemma applyStep_inv {ids0 : ElementType → Int} {now s0 : Int}
    {pre : List (Element × ElementRef)} {st : LoopState}
    (hinv : LoopInv ids0 now s0 pre st) (p : Element × ElementRef)
    (htp : p.1.type = p.2.type) :
    LoopInv ids0 now s0 (pre ++ [p]) (applyStep now (s0 + (pre.length : Int)) st p) := by
  have hmapsnd : (pre ++ [p]).map Prod.snd = pre.map Prod.snd ++ [p.2] := by simp
  have hreflen : (pre.map Prod.snd).length = pre.length := by simp
  have hdone := applyStep_done now (s0 + (pre.length : Int)) st p
  have hprevIdx := applyStep_prevIdx now (s0 + (pre.length : Int)) st p
  have huti := applyStep_uti now (s0 + (pre.length : Int)) st p
  have hasgmap := applyStep_assignedIdMap now (s0 + (pre.length : Int)) st p
  have hcurmap := applyStep_currentIdMap now (s0 + (pre.length : Int)) st p
  -- facts about the occurrence list of the new element's ref
  have hoccp : occPositionsFrom p.2 (pre.map Prod.snd ++ [p.2]) 0
      = occPositionsFrom p.2 (pre.map Prod.snd) 0 ++ [pre.length] := by
    rw [occPositionsFrom_append_singleton, if_pos rfl, Nat.zero_add, hreflen]
  have hnm : pre.length ∉ occPositionsFrom p.2 (pre.map Prod.snd) 0 := by
    intro hmem
    have := (occPositionsFrom_bounds hmem).2
    omega
  have hnextm : nextAfter (pre.map Prod.snd ++ [p.2]) pre.length = none := by
    have hg : (pre.map Prod.snd ++ [p.2]).get? pre.length = some p.2 := by
      have h0 := get?_append_r (pre.map Prod.snd) [p.2] 0
      simpa [hreflen] using h0
    unfold nextAfter
    rw [hg]
    show succIn (occPositionsFrom p.2 (pre.map Prod.snd ++ [p.2]) 0) pre.length = none
    rw [hoccp]
    exact succIn_append_self_not_mem hnm
  -- stability of nextAfter at old positions
  have hnextk : ∀ k, k < pre.length →
      nextAfter (pre.map Prod.snd ++ [p.2]) k
        = (if (pre.map Prod.snd).get? k = some p.2 ∧ alookup st.prevIdx p.2 = some k
           then some pre.length else nextAfter (pre.map Prod.snd) k) := by
    intro k hk
    have hgk : (pre.map Prod.snd ++ [p.2]).get? k = (pre.map Prod.snd).get? k :=
      get?_append_l (by omega)
    rcases hg : (pre.map Prod.snd).get? k with _ | r
    · rw [if_neg (by simp [hg])]
      unfold nextAfter
      rw [hgk, hg]
    · by_cases hr : r = p.2
      · have hg2 : (pre.map Prod.snd).get? k = some p.2 := by rw [hg, hr]
        have hmemP : k ∈ occPositionsFrom p.2 (pre.map Prod.snd) 0 := by
          have hm0 := mem_occPositionsFrom (b := 0) hg2
          simpa using hm0
        have hpw := occPositionsFrom_pairwise p.2 (pre.map Prod.snd) 0
        have hlhs : nextAfter (pre.map Prod.snd ++ [p.2]) k
            = succIn (occPositionsFrom p.2 (pre.map Prod.snd) 0 ++ [pre.length]) k := by
          unfold nextAfter
          rw [hgk, hg2]
          show succIn (occPositionsFrom p.2 (pre.map Prod.snd ++ [p.2]) 0) k = _
          rw [hoccp]
        have hrhs : nextAfter (pre.map Prod.snd) k
            = succIn (occPositionsFrom p.2 (pre.map Prod.snd) 0) k := by
          unfold nextAfter
          rw [hg2]
        rcases succIn_cases hpw hmemP with ⟨hlast, hnone⟩ | ⟨j, hj⟩
        · have hlk : alookup st.prevIdx p.2 = some k := by rw [hinv.prev p.2, hlast]
          rw [hlhs, succIn_append_last pre.length hmemP hnone hpw,
            if_pos ⟨by rw [hr], hlk⟩]
        · have hne : ¬ alookup st.prevIdx p.2 = some k := by
            rw [hinv.prev p.2]
            intro hlast
            have hcon := succIn_last hpw hlast
            rw [hcon] at hj
            exact absurd hj (by simp)
          rw [hlhs, succIn_append_of_some pre.length hj,
            if_neg (fun hcc => hne hcc.2), hrhs, hj]
      · have hocc2 : occPositionsFrom r (pre.map Prod.snd ++ [p.2]) 0
            = occPositionsFrom r (pre.map Prod.snd) 0 := by
          rw [occPositionsFrom_append_singleton, if_neg (fun e => hr e.symm),
            List.append_nil]
        have hcnd : ¬ (some r = some p.2 ∧ alookup st.prevIdx p.2 = some k) := by
          intro hcc
          exact hr (Option.some.inj hcc.1)
        rw [if_neg hcnd]
        unfold nextAfter
        rw [hgk, hg]
        show succIn (occPositionsFrom r (pre.map Prod.snd ++ [p.2]) 0) k
            = succIn (occPositionsFrom r (pre.map Prod.snd) 0) k
        rw [hocc2]
  refine { len := ?_, prev := ?_, uti := ?_, cur_ge := ?_, asg_bounds := ?_,
           asg_occurs := ?_, asg_inj := ?_, not_asg := ?_, shape := ?_ }
  -- length
  · rw [hdone]
    rcases hpl : alookup st.prevIdx p.2 with _ | i <;>
      simp [hpl, modifyAt_length, hinv.len]
  -- prev_map
  · intro r
    rw [hprevIdx, hmapsnd]
    show (if r = p.2 then some st.done.length else alookup st.prevIdx r) = _
    by_cases hr : r = p.2
    · subst hr
      rw [if_pos rfl, hoccp, List.getLast?_concat, hinv.len]
    · rw [if_neg hr, hinv.prev r, occPositionsFrom_append_singleton,
        if_neg (fun e => hr e.symm), List.append_nil]
  -- update_type_ids
  · rw [huti, hinv.uti, utiOf_append_singleton]
    congr 1
    rcases hpl : alookup st.prevIdx p.2 with _ | i
    · have hnmem : p.2 ∉ pre.map Prod.snd := by
        rw [hinv.prev p.2, List.getLast?_eq_none_iff] at hpl
        exact occPositionsFrom_eq_nil_iff.mp hpl
      by_cases hv : 1 < p.1.version
      · rw [if_pos hv, if_neg (by simp [hnmem]; omega)]
      · rw [if_neg hv, if_pos (by simp [hnmem]; omega)]
    · have hmem : p.2 ∈ pre.map Prod.snd := by
        by_contra hn
        rw [hinv.prev p.2, occPositionsFrom_eq_nil_iff.mpr hn] at hpl
        simp at hpl
      rw [if_pos (Or.inr (Or.inl hmem))]
  -- current_id_map lower bound
  · intro t
    rw [hcurmap]
    split
    · show ids0 t ≤ if t = p.1.type then st.currentIdMap p.1.type + 1
        else st.currentIdMap t
      by_cases ht : t = p.1.type
      · rw [if_pos ht, ht]
        have hge := hinv.cur_ge p.1.type
        omega
      · rw [if_neg ht]
        exact hinv.cur_ge t
    · exact hinv.cur_ge t
  -- assigned_id_map bounds
  · intro q hq
    rw [hasgmap] at hq
    rw [hcurmap]
    by_cases hnb : p.1.id < 0 ∧ alookup st.assignedIdMap p.2 = none
    · rw [if_pos hnb] at hq ⊢
      rcases List.mem_append.mp hq with hq1 | hq2
      · have hb := hinv.asg_bounds q hq1
        refine ⟨hb.1, ?_⟩
        show q.2 ≤ if q.1.type = p.1.type then st.currentIdMap p.1.type + 1
          else st.currentIdMap q.1.type
        by_cases ht : q.1.type = p.1.type
        · rw [if_pos ht]
          have hb2 := hb.2
          rw [ht] at hb2
          omega
        · rw [if_neg ht]
          exact hb.2
      · have hq2e : q = (p.2, st.currentIdMap p.1.type + 1) := by simpa using hq2
        subst hq2e
        have hge := hinv.cur_ge p.1.type
        constructor
        · show ids0 p.2.type < st.currentIdMap p.1.type + 1
          rw [← htp]
          omega
        · show st.currentIdMap p.1.type + 1
            ≤ if p.2.type = p.1.type then st.currentIdMap p.1.type + 1
              else st.currentIdMap p.2.type
          rw [if_pos htp.symm]
    · rw [if_neg hnb] at hq ⊢
      exact hinv.asg_bounds q hq
  -- assigned_id_map keys occurred
  · intro q hq
    rw [hasgmap] at hq
    rw [hmapsnd]
    by_cases hnb : p.1.id < 0 ∧ alookup st.assignedIdMap p.2 = none
    · rw [if_pos hnb] at hq
      rcases List.mem_append.mp hq with hq1 | hq2
      · exact List.mem_append_left _ (hinv.asg_occurs q hq1)
      · have hq2e : q = (p.2, st.currentIdMap p.1.type + 1) := by simpa using hq2
        subst hq2e
        simp
    · rw [if_neg hnb] at hq
      exact List.mem_append_left _ (hinv.asg_occurs q hq)
  -- assigned ids distinct per type
  · intro q1 hq1 q2 hq2 htt hne
    rw [hasgmap] at hq1 hq2
    by_cases hnb : p.1.id < 0 ∧ alookup st.assignedIdMap p.2 = none
    · rw [if_pos hnb] at hq1 hq2
      rcases List.mem_append.mp hq1 with h1 | h1 <;>
        rcases List.mem_append.mp hq2 with h2 | h2
      · exact hinv.asg_inj q1 h1 q2 h2 htt hne
      · have hq2e : q2 = (p.2, st.currentIdMap p.1.type + 1) := by simpa using h2
        subst hq2e
        have hb := hinv.asg_bounds q1 h1
        have hb2 := hb.2
        rw [htt] at hb2
        show q1.2 ≠ st.currentIdMap p.1.type + 1
        have he : (p.2, st.currentIdMap p.1.type + 1).1.type = p.2.type := rfl
        rw [he, ← htp] at hb2
        omega
      · have hq1e : q1 = (p.2, st.currentIdMap p.1.type + 1) := by simpa using h1
        subst hq1e
        have hb := hinv.asg_bounds q2 h2
        have hb2 := hb.2
        rw [← htt] at hb2
        have he : (p.2, st.currentIdMap p.1.type + 1).1.type = p.2.type := rfl
        rw [he, ← htp] at hb2
        show st.currentIdMap p.1.type + 1 ≠ q2.2
        omega
      · have hq1e : q1 = (p.2, st.currentIdMap p.1.type + 1) := by simpa using h1
        have hq2e : q2 = (p.2, st.currentIdMap p.1.type + 1) := by simpa using h2
        rw [hq1e, hq2e] at hne
        exact absurd rfl hne
    · rw [if_neg hnb] at hq1 hq2
      exact hinv.asg_inj q1 hq1 q2 hq2 htt hne
  -- unbound refs stay unbound
  · intro r hr
    rw [hmapsnd] at hr
    rw [hasgmap]
    have hr1 : r ∉ pre.map Prod.snd := fun h => hr (List.mem_append_left _ h)
    have hr2 : ¬ r = p.2 := fun h => hr (List.mem_append_right _ (by simp [h]))
    by_cases hnb : p.1.id < 0 ∧ alookup st.assignedIdMap p.2 = none
    · rw [if_pos hnb, alookup_append, hinv.not_asg r hr1]
      show Option.or none (alookup [(p.2, st.currentIdMap p.1.type + 1)] r) = none
      simp [alookup, hr2]
    · rw [if_neg hnb]
      exact hinv.not_asg r hr1
  -- shape of the processed prefix
  · intro k q hkq
    have hklt : k < pre.length + 1 := by
      have hsl := get?_some_lt hkq
      simpa using hsl
    rw [hmapsnd]
    rcases hpl : alookup st.prevIdx p.2 with _ | i <;> simp only [hpl] at hdone
    -- no in-batch predecessor for the new element
    · by_cases hkm : k = pre.length
      · subst hkm
        have hq : q = p := by
          have h0 := get?_append_r pre [p] 0
          simp only [Nat.add_zero] at h0
          rw [h0] at hkq
          simpa using hkq.symm
        subst hq
        refine ⟨stepAsgId st q.1 q.2, ?_, ?_, ?_⟩
        · rw [hdone, hnextm]
          have h1 : ∀ x : Element, (st.done ++ [x]).get? pre.length = some x := by
            intro x
            have h0 := get?_append_r st.done [x] 0
            simp only [Nat.add_zero] at h0
            rw [hinv.len] at h0
            exact h0
          rw [h1]
        · intro hneg
          rw [hasgmap]
          rcases hal : alookup st.assignedIdMap q.2 with _ | a
          · rw [if_pos ⟨hneg, rfl⟩, alookup_append, hal]
            have hone : alookup [(q.2, st.currentIdMap q.1.type + 1)] q.2
                = some (st.currentIdMap q.1.type + 1) := by
              simp [alookup]
            rw [hone]
            show some (st.currentIdMap q.1.type + 1) = some (stepAsgId st q.1 q.2)
            unfold stepAsgId
            rw [if_pos hneg, hal]
          · rw [if_neg (by intro hcc; exact absurd hcc.2 (by simp)), hal]
            congr 1
            unfold stepAsgId
            rw [if_pos hneg, hal]
        · intro hpos
          unfold stepAsgId
          rw [if_neg (by omega)]
      · have hklt2 : k < pre.length := by omega
        have hkq2 : pre.get? k = some q := by
          rw [get?_append_l hklt2] at hkq
          exact hkq
        obtain ⟨v, hsh, hvne, hvpo⟩ := hinv.shape k q hkq2
        refine ⟨v, ?_, ?_, ?_⟩
        · rw [hdone, get?_append_l (by rw [hinv.len]; exact hklt2),
            hnextk k hklt2, if_neg (by intro hcc; rw [hpl] at hcc; simp at hcc)]
          exact hsh
        · intro hneg
          rw [hasgmap]
          by_cases hnb : p.1.id < 0 ∧ alookup st.assignedIdMap p.2 = none
          · rw [if_pos hnb]
            exact alookup_append_some (hvne hneg)
          · rw [if_neg hnb]
            exact hvne hneg
        · exact hvpo
    -- the new element links its in-batch predecessor at position i
    · have hgi : alookup st.prevIdx p.2 = some i := hpl
      have hlasti : (occPositionsFrom p.2 (pre.map Prod.snd) 0).getLast? = some i := by
        rw [← hinv.prev p.2]
        exact hgi
      have hmemi : i ∈ occPositionsFrom p.2 (pre.map Prod.snd) 0 :=
        mem_of_getLast?_own hlasti
      have hilt : i < pre.length := by
        have hb := (occPositionsFrom_bounds hmemi).2
        omega
      have hgri : (pre.map Prod.snd).get? i = some p.2 := by
        have hg0 := occPositionsFrom_get? hmemi
        simpa using hg0
      by_cases hkm : k = pre.length
      · subst hkm
        have hq : q = p := by
          have h0 := get?_append_r pre [p] 0
          simp only [Nat.add_zero] at h0
          rw [h0] at hkq
          simpa using hkq.symm
        subst hq
        refine ⟨stepAsgId st q.1 q.2, ?_, ?_, ?_⟩
        · rw [hdone, hnextm]
          have h1 : ∀ x : Element,
              ((modifyAt (fun e => { e with
                next_sequence_id := some (s0 + (pre.length : Int)) }) i st.done)
                ++ [x]).get? pre.length = some x := by
            intro x
            have h0 := get?_append_r (modifyAt (fun e => { e with
              next_sequence_id := some (s0 + (pre.length : Int)) }) i st.done) [x] 0
            simp only [Nat.add_zero, modifyAt_length] at h0
            rw [hinv.len] at h0
            exact h0
          rw [h1]
        · intro hneg
          rw [hasgmap]
          rcases hal : alookup st.assignedIdMap q.2 with _ | a
          · rw [if_pos ⟨hneg, rfl⟩, alookup_append, hal]
            have hone : alookup [(q.2, st.currentIdMap q.1.type + 1)] q.2
                = some (st.currentIdMap q.1.type + 1) := by
              simp [alookup]
            rw [hone]
            show some (st.currentIdMap q.1.type + 1) = some (stepAsgId st q.1 q.2)
            unfold stepAsgId
            rw [if_pos hneg, hal]
          · rw [if_neg (by intro hcc; exact absurd hcc.2 (by simp)), hal]
            congr 1
            unfold stepAsgId
            rw [if_pos hneg, hal]
        · intro hpos
          unfold stepAsgId
          rw [if_neg (by omega)]
      · have hklt2 : k < pre.length := by omega
        have hkq2 : pre.get? k = some q := by
          rw [get?_append_l hklt2] at hkq
          exact hkq
        obtain ⟨v, hsh, hvne, hvpo⟩ := hinv.shape k q hkq2
        refine ⟨v, ?_, ?_, ?_⟩
        · rw [hdone, get?_append_l (by rw [modifyAt_length, hinv.len]; exact hklt2)]
          by_cases hki : k = i
          · subst hki
            rw [modifyAt_get?_eq _ _ _ (by rw [hinv.len]; exact hklt2), hsh]
            have hna : nextAfter (pre.map Prod.snd) k = none := by
              unfold nextAfter
              rw [hgri]
              exact succIn_last (occPositionsFrom_pairwise p.2 (pre.map Prod.snd) 0)
                hlasti
            rw [hnextk k hklt2, if_pos ⟨hgri, hgi⟩, hna]
            rfl
          · rw [modifyAt_get?_ne _ _ _ _ (fun e => hki e.symm),
              hnextk k hklt2,
              if_neg (by
                intro hcc
                rw [hgi] at hcc
                have h2 : i = k := by simpa using hcc.2
                exact hki h2.symm)]
            exact hsh
        · intro hneg
          rw [hasgmap]
          by_cases hnb : p.1.id < 0 ∧ alookup st.assignedIdMap p.2 = none
          · rw [if_pos hnb]
            exact alookup_append_some (hvne hneg)
          · rw [if_neg hnb]
            exact hvne hneg
        · exact hvpo

lemma processLoop_inv (ids0 : ElementType → Int) (now s0 : Int)
    (rest : List (Element × ElementRef)) (pre : List (Element × ElementRef))
    (st : LoopState) (hinv : LoopInv ids0 now s0 pre st)
    (htp : ∀ q ∈ rest, (q : Element × ElementRef).1.type = q.2.type) :
    LoopInv ids0 now s0 (pre ++ rest)
      (processLoop now st (s0 + (pre.length : Int)) rest) := by
  induction rest generalizing pre st with
  | nil => simpa using hinv
  | cons p t ih =>
    have hstep := applyStep_inv hinv p (htp p (List.mem_cons_self p t))
    have hrec := ih (pre ++ [p]) _ hstep (fun q hq => htp q (List.mem_cons_of_mem p hq))
    have hl : (pre ++ [p]) ++ t = pre ++ p :: t := by simp
    have hs : s0 + (((pre ++ [p]).length : Nat) : Int) = s0 + (pre.length : Int) + 1 := by
      simp only [List.length_append, List.length_cons, List.length_nil]
      push_cast
      ring
    rw [hl, hs] at hrec
    exact hrec

lemma processElements_inv (curSeq : Int) (curIds : ElementType → Int) (now : Int)
    (els : List (Element × ElementRef))
    (htp : ∀ q ∈ els, (q : Element × ElementRef).1.type = q.2.type) :
    LoopInv curIds now (curSeq + 1) els (processElements curSeq curIds now els) := by
  have hinit : LoopInv curIds now (curSeq + 1) [] ⟨[], [], [], [], curIds⟩ := by
    refine { len := rfl, prev := fun r => rfl, uti := rfl, cur_ge := fun t => le_rfl,
             asg_bounds := ?_, asg_occurs := ?_, asg_inj := ?_,
             not_asg := fun r _ => rfl, shape := ?_ }
    · intro q hq
      simp at hq
    · intro q hq
      simp at hq
    · intro q1 hq1
      simp at hq1
    · intro k q hkq
      simp at hkq
  have hmain := processLoop_inv curIds now (curSeq + 1) els [] _ hinit htp
  have hz : curSeq + 1 + ((List.length ([] : List (Element × ElementRef)) : Nat) : Int)
      = curSeq + 1 := by simp
  rw [hz] at hmain
  simpa [processElements] using hmain

lemma map_modifyAt_invariant {α β : Type} (f : α → α) (g : α → β) (i : Nat)
    (l : List α) (hfg : ∀ a, g (f a) = g a) :
    (modifyAt f i l).map g = l.map g := by
  induction l generalizing i with
  | nil => cases i <;> rfl
  | cons a t ih =>
    cases i with
    | zero => simp [modifyAt, hfg]
    | succ n => simp [modifyAt, ih n]

lemma applyStep_done_seqs (now seq : Int) (st : LoopState) (p : Element × ElementRef) :
    (applyStep now seq st p).done.map (fun e => e.sequence_id)
      = st.done.map (fun e => e.sequence_id) ++ [some seq] := by
  rw [applyStep_done, List.map_append]
  congr 1
  rcases alookup st.prevIdx p.2 with _ | i
  · rfl
  · exact map_modifyAt_invariant _ _ _ _ (fun a => rfl)

lemma processLoop_done_seqs (now : Int) (rest : List (Element × ElementRef))
    (st : LoopState) (s : Int) :
    (processLoop now st s rest).done.map (fun e => e.sequence_id)
      = st.done.map (fun e => e.sequence_id)
        ++ (List.range rest.length).map (fun k : Nat => some (s + (k : Int))) := by
  induction rest generalizing st s with
  | nil => simp [processLoop]
  | cons p t ih =>
    show (processLoop now (applyStep now s st p) (s + 1) t).done.map _ = _
    rw [ih, applyStep_done_seqs, List.append_assoc]
    congr 1
    rw [List.length_cons, List.range_succ_eq_map, List.map_cons, List.map_map]
    show some s :: (List.range t.length).map (fun k : Nat => some (s + 1 + (k : Int)))
        = some (s + ((0 : Nat) : Int)) :: (List.range t.length).map
            (fun k : Nat => some (s + ((Nat.succ k : Nat) : Int)))
    congr 1
    · congr 1
      simp
    · apply List.map_congr_left
      intro k _
      congr 1
      push_cast
      ring

lemma processElements_done_seqs (curSeq : Int) (curIds : ElementType → Int) (now : Int)
    (els : List (Element × ElementRef)) :
    (processElements curSeq curIds now els).done.map (fun e => e.sequence_id)
      = (List.range els.length).map (fun k : Nat => some (curSeq + 1 + (k : Int))) := by
  unfold processElements
  rw [processLoop_done_seqs]
  rfl

lemma omapList_length {α β : Type} {f : α → Option β} {l : List α} {l2 : List β}
    (h : omapList f l = some l2) : l2.length = l.length := by
  induction l generalizing l2 with
  | nil =>
    simp only [omapList, Option.some.injEq] at h
    rw [← h]
    rfl
  | cons a t ih =>
    simp only [omapList] at h
    rcases hfa : f a with _ | b <;> rw [hfa] at h
    · simp at h
    · rcases hft : omapList f t with _ | bt <;> rw [hft] at h
      · simp at h
      · simp only [Option.some.injEq] at h
        rw [← h]
        simp [ih hft]

lemma omapList_get? {α β : Type} {f : α → Option β} {l : List α} {l2 : List β}
    (h : omapList f l = some l2) (k : Nat) {a : α} (ha : l.get? k = some a) :
    ∃ b, l2.get? k = some b ∧ f a = some b := by
  induction l generalizing l2 k with
  | nil => simp at ha
  | cons x t ih =>
    simp only [omapList] at h
    rcases hfa : f x with _ | b <;> rw [hfa] at h
    · simp at h
    · rcases hft : omapList f t with _ | bt <;> rw [hft] at h
      · simp at h
      · simp only [Option.some.injEq] at h
        subst h
        cases k with
        | zero =>
          refine ⟨b, rfl, ?_⟩
          have hax : x = a := by simpa using ha
          rw [← hax]
          exact hfa
        | succ m => exact ih hft m (by simpa using ha)

lemma omapList_map_eq {α β γ : Type} {f : α → Option β} {l : List α} {l2 : List β}
    (g1 : α → γ) (g2 : β → γ) (h : omapList f l = some l2)
    (hfg : ∀ a b, f a = some b → g2 b = g1 a) : l2.map g2 = l.map g1 := by
  induction l generalizing l2 with
  | nil =>
    simp only [omapList, Option.some.injEq] at h
    rw [← h]
    rfl
  | cons a t ih =>
    simp only [omapList] at h
    rcases hfa : f a with _ | b <;> rw [hfa] at h
    · simp at h
    · rcases hft : omapList f t with _ | bt <;> rw [hft] at h
      · simp at h
      · simp only [Option.some.injEq] at h
        subst h
        simp only [List.map_cons]
        rw [hfg a b hfa, ih hft]

lemma resolveMembers_eq {asg : List (ElementRef × Int)} {e e2 : Element}
    (h : resolveMembers asg e = some e2) :
    ∃ ms, omapList (resolveMember asg e.sequence_id) e.members = some ms
      ∧ e2 = { e with members := ms } := by
  unfold resolveMembers at h
  rcases hms : omapList (resolveMember asg e.sequence_id) e.members with _ | ms <;>
    rw [hms] at h
  · simp at h
  · refine ⟨ms, rfl, ?_⟩
    simpa using h.symm

lemma filterMap_of_map_some {α β : Type} {g : α → Option β} {l : List α} {L : List β}
    (h : l.map g = L.map some) : l.filterMap g = L := by
  induction l generalizing L with
  | nil =>
    cases L with
    | nil => rfl
    | cons b t => simp at h
  | cons a t ih =>
    cases L with
    | nil => simp at h
    | cons b t2 =>
      simp only [List.map_cons, List.cons.injEq] at h
      rw [List.filterMap_cons, h.1]
      simp [ih h.2]

/-- Success inversion of `applyModel` for a nonempty batch: every check
passed and the new state is the linked, flushed table with the updated
changeset row. -/
lemma applyModel_ok {maxSize now : Int} {p : OptimisticDiffPrepare} {db db1 : DbState}
    {res : List (ElementRef × Element)} (hne : p.apply_elements ≠ [])
    (h : applyModel maxSize now p db = .ok (db1, res)) :
    checkElementsLatest db.store p.element_state = true ∧
    (p.reference_check_element_refs = [] ∨
      checkIsUnreferenced db.store p.reference_check_element_refs
        p.at_sequence_id = true) ∧
    ∃ newCs inserted uti,
      updateChangesetRow db.changesetRow.updated_at now maxSize p.changeset
        = some newCs ∧
      updateElementsPrepared (currentSequenceIdOf db.store) (currentTypedIds db.store)
        now p.apply_elements = some (inserted, uti) ∧
      db1 = { store := dbLinkUpdate (currentSequenceIdOf db.store) uti
                (db.store ++ inserted),
              changesetRow := newCs } ∧
      res = (p.apply_elements.map Prod.snd).zip inserted := by
  unfold applyModel at h
  rw [if_neg (by simpa [List.isEmpty_iff] using hne)] at h
  rcases hc1 : checkElementsLatest db.store p.element_state with _ | _ <;>
    rw [hc1] at h
  · simp at h
  rw [if_neg (by simp)] at h
  rcases hc2 : (!p.reference_check_element_refs.isEmpty
      && !(checkIsUnreferenced db.store p.reference_check_element_refs
            p.at_sequence_id)) with _ | _ <;> rw [hc2] at h
  swap
  · rw [if_pos rfl] at h
    simp at h
  rw [if_neg (by simp)] at h
  refine ⟨rfl, ?_, ?_⟩
  · rcases hcu : checkIsUnreferenced db.store p.reference_check_element_refs
        p.at_sequence_id with _ | _
    · left
      rw [hcu] at hc2
      rcases hbe : p.reference_check_element_refs.isEmpty with _ | _
      · rw [hbe] at hc2
        simp at hc2
      · simpa [List.isEmpty_iff] using hbe
    · exact Or.inr rfl
  · rcases hcs : updateChangesetRow db.changesetRow.updated_at now maxSize p.changeset
        with _ | newCs <;> rw [hcs] at h
    · simp at h
    rcases hue : updateElementsPrepared (currentSequenceIdOf db.store)
        (currentTypedIds db.store) now p.apply_elements with _ | pr <;> rw [hue] at h
    · simp at h
    obtain ⟨inserted, uti⟩ := pr
    simp only [Except.ok.injEq, Prod.mk.injEq] at h
    exact ⟨newCs, inserted, uti, rfl, rfl, h.1.symm, h.2.symm⟩

lemma updateElementsPrepared_seqs {curSeq : Int} {curIds : ElementType → Int}
    {now : Int} {els : List (Element × ElementRef)} {inserted : List Element}
    {uti : List (ElementType × Int)}
    (h : updateElementsPrepared curSeq curIds now els = some (inserted, uti)) :
    inserted.map (fun e => e.sequence_id)
      = (List.range els.length).map (fun k : Nat => some (curSeq + 1 + (k : Int))) := by
  unfold updateElementsPrepared at h
  rcases hom : omapList
      (resolveMembers (processElements curSeq curIds now els).assignedIdMap)
      (processElements curSeq curIds now els).done with _ | es <;> rw [hom] at h
  · exact Option.noConfusion h
  · simp only [Option.map_some', Option.some.injEq, Prod.mk.injEq] at h
    have hmap := omapList_map_eq (fun e => e.sequence_id) (fun e => e.sequence_id) hom
      (fun a b hb => by
        obtain ⟨ms, _, hbe⟩ := resolveMembers_eq hb
        rw [hbe])
    rw [← h.1, hmap, processElements_done_seqs]

lemma updateElementsPrepared_length {curSeq : Int} {curIds : ElementType → Int}
    {now : Int} {els : List (Element × ElementRef)} {inserted : List Element}
    {uti : List (ElementType × Int)}
    (h : updateElementsPrepared curSeq curIds now els = some (inserted, uti)) :
    inserted.length = els.length := by
  have hm := congrArg List.length (updateElementsPrepared_seqs h)
  simpa using hm

lemma updateElementsPrepared_seq_at {curSeq : Int} {curIds : ElementType → Int}
    {now : Int} {els : List (Element × ElementRef)} {inserted : List Element}
    {uti : List (ElementType × Int)} {i : Nat} {e : Element}
    (h : updateElementsPrepared curSeq curIds now els = some (inserted, uti))
    (hi : inserted.get? i = some e) :
    e.sequence_id = some (curSeq + 1 + (i : Int)) := by
  have hm := updateElementsPrepared_seqs h
  have hg : (inserted.map (fun e => e.sequence_id)).get? i = some e.sequence_id := by
    rw [get?_map_own, hi]
    rfl
  rw [hm, get?_map_own] at hg
  have hilt : i < els.length := by
    have := get?_some_lt hi
    rw [updateElementsPrepared_length h] at this
    exact this
  rw [List.get?_range hilt] at hg
  simpa using hg.symm

lemma dbLinkUpdate_currentSeq (curSeq : Int) (uti : List (ElementType × Int))
    (table : List Element) :
    currentSequenceIdOf (dbLinkUpdate curSeq uti table) = currentSequenceIdOf table := by
  unfold currentSequenceIdOf dbLinkUpdate
  rw [List.filterMap_map]
  have hco : ((fun e => e.sequence_id) ∘ linkFn curSeq uti table)
      = fun (e : Element) => e.sequence_id := by
    funext e
    by_cases hc : matchesUpdateCond curSeq uti e = true <;>
      simp [Function.comp, linkFn, hc]
  rw [hco]

/-- After a successful nonempty apply, the global maximum sequence id has
advanced by exactly the batch length. -/
lemma applyModel_ok_currentSeq {maxSize now : Int} {p : OptimisticDiffPrepare}
    {db db1 : DbState} {res : List (ElementRef × Element)}
    (hne : p.apply_elements ≠ [])
    (h : applyModel maxSize now p db = .ok (db1, res)) :
    currentSequenceIdOf db1.store
      = currentSequenceIdOf db.store + (p.apply_elements.length : Int) := by
  obtain ⟨-, -, newCs, inserted, uti, -, hue, hdb1, -⟩ := applyModel_ok hne h
  have hn1 : 1 ≤ p.apply_elements.length := by
    cases hel : p.apply_elements with
    | nil => exact absurd hel hne
    | cons a t => simp [hel]
  rw [hdb1]
  show currentSequenceIdOf (dbLinkUpdate (currentSequenceIdOf db.store) uti
    (db.store ++ inserted)) = _
  rw [dbLinkUpdate_currentSeq]
  have happ : currentSequenceIdOf (db.store ++ inserted)
      = maxOr0 (db.store.filterMap (fun e => e.sequence_id)
          ++ inserted.filterMap (fun e => e.sequence_id)) := by
    unfold currentSequenceIdOf
    rw [List.filterMap_append]
  have hfm : inserted.filterMap (fun e => e.sequence_id)
      = (List.range p.apply_elements.length).map
          (fun k : Nat => currentSequenceIdOf db.store + 1 + (k : Int)) := by
    apply filterMap_of_map_some
    rw [updateElementsPrepared_seqs hue, List.map_map]
    rfl
  rw [happ, hfm]
  have hS : maxOr0 (db.store.filterMap (fun e => e.sequence_id))
      = currentSequenceIdOf db.store := rfl
  apply maxOr0_eq_of_mem
  · apply List.mem_append_right
    refine List.mem_map.mpr ⟨p.apply_elements.length - 1, ?_, ?_⟩
    · exact List.mem_range.mpr (by omega)
    · have hc : ((p.apply_elements.length - 1 : Nat) : Int)
          = (p.apply_elements.length : Int) - 1 := by
        omega
      rw [hc]
      ring
  · intro x hx
    rcases List.mem_append.mp hx with hx | hx
    · have hle := mem_le_maxOr0 hx
      rw [hS] at hle
      have hp0 : (0 : Int) ≤ (p.apply_elements.length : Int) := by positivity
      omega
    · obtain ⟨k, hk, rfl⟩ := List.mem_map.mp hx
      have hklt : k < p.apply_elements.length := List.mem_range.mp hk
      have hck : ((k : Nat) : Int) + 1 ≤ (p.apply_elements.length : Int) := by
        exact_mod_cast hklt
      omega

lemma applyModel_empty {maxSize now : Int} {p : OptimisticDiffPrepare} {db : DbState}
    (hemp : p.apply_elements = []) : applyModel maxSize now p db = .ok (db, []) := by
  unfold applyModel
  rw [if_pos (by simp [hemp])]

lemma zip_get? {α β : Type} {l1 : List α} {l2 : List β} {i : Nat} {q : α × β}
    (h : (l1.zip l2).get? i = some q) :
    l1.get? i = some q.1 ∧ l2.get? i = some q.2 := by
  induction l1 generalizing l2 i with
  | nil => simp at h
  | cons a t ih =>
    cases l2 with
    | nil => simp at h
    | cons b t2 =>
      cases i with
      | zero =>
        have hq : q = (a, b) := by simpa using h.symm
        rw [hq]
        exact ⟨rfl, rfl⟩
      | succ m => exact ih (by simpa using h)

/-- C1: inside a successful nonempty apply the i-th element of the batch (in
batch order, zero-based here) receives sequence id `current global max + 1 +
i`, read from the pre-apply state; consequently, across two sequential
applies every sequence id committed by the second apply is strictly greater
than every sequence id committed by the first, giving strictly increasing,
process-wide unique sequence ids and a total commit order. -/
theorem apply_sequence_ids_strictly_increasing
    (maxSize now now2 : Int) (p q : OptimisticDiffPrepare) (db db1 db2 : DbState)
    (res1 res2 : List (ElementRef × Element))
    (hne : p.apply_elements ≠ [])
    (h1 : applyModel maxSize now p db = .ok (db1, res1))
    (h2 : applyModel maxSize now2 q db1 = .ok (db2, res2)) :
    (∀ (i : Nat) (pr : ElementRef × Element), res1.get? i = some pr →
      pr.2.sequence_id = some (currentSequenceIdOf db.store + 1 + (i : Int))) ∧
    (∀ (i j : Nat) (pr qr : ElementRef × Element) (s1 s2 : Int),
      res1.get? i = some pr → res2.get? j = some qr →
      pr.2.sequence_id = some s1 → qr.2.sequence_id = some s2 → s1 < s2) := by
  obtain ⟨-, -, newCs, inserted, uti, -, hue, hdb1, hres1⟩ := applyModel_ok hne h1
  have hseq1 : ∀ (i : Nat) (pr : ElementRef × Element), res1.get? i = some pr →
      pr.2.sequence_id = some (currentSequenceIdOf db.store + 1 + (i : Int)) := by
    intro i pr hpr
    rw [hres1] at hpr
    have hz := (zip_get? hpr).2
    exact updateElementsPrepared_seq_at hue hz
  refine ⟨hseq1, ?_⟩
  intro i j pr qr s1 s2 hpr hqr hs1 hs2
  by_cases hq2 : q.apply_elements = []
  · rw [applyModel_empty hq2] at h2
    have hr2 : res2 = [] := by
      have h22 := h2
      simp only [Except.ok.injEq, Prod.mk.injEq] at h22
      exact h22.2.symm
    rw [hr2] at hqr
    simp at hqr
  · obtain ⟨-, -, newCs2, inserted2, uti2, -, hue2, hdb2, hres2⟩ := applyModel_ok hq2 h2
    have hcs1 := applyModel_ok_currentSeq hne h1
    have hs1v : s1 = currentSequenceIdOf db.store + 1 + (i : Int) := by
      have := hseq1 i pr hpr
      rw [hs1] at this
      simpa using this
    have hs2v : s2 = currentSequenceIdOf db1.store + 1 + (j : Int) := by
      rw [hres2] at hqr
      have hz := (zip_get? hqr).2
      have := updateElementsPrepared_seq_at hue2 hz
      rw [hs2] at this
      simpa using this
    have hilt : i < p.apply_elements.length := by
      rw [hres1] at hpr
      have hz := (zip_get? hpr).2
      have := get?_some_lt hz
      rw [updateElementsPrepared_length hue] at this
      exact this
    have hcast : ((i : Nat) : Int) + 1 ≤ (p.apply_elements.length : Int) := by
      exact_mod_cast hilt
    have hj0 : (0 : Int) ≤ (j : Nat) := by positivity
    rw [hs1v, hs2v, hcs1]
    omega

/-- Draft of a created node with placeholder id `-1`. -/
def c1el : Element :=
  { type := .node, id := -1, version := 1, visible := true, members := [],
    sequence_id := none, next_sequence_id := none, created_at := none }

def c1db : DbState :=
  { store := [],
    changesetRow := { id := 7, updated_at := 10, closed_at := none, size := 1 } }

def c1p : OptimisticDiffPrepare :=
  { apply_elements := [(c1el, ⟨.node, -1⟩)], element_state := [],
    reference_check_element_refs := [], at_sequence_id := 0,
    changeset := { id := 7, updated_at := 10, closed_at := none, size := 1 } }

def c1q : OptimisticDiffPrepare :=
  { apply_elements := [(c1el, ⟨.node, -1⟩)], element_state := [],
    reference_check_element_refs := [], at_sequence_id := 0,
    changeset := { id := 7, updated_at := 20, closed_at := none, size := 1 } }

def c1e1 : Element :=
  { type := .node, id := 1, version := 1, visible := true, members := [],
    sequence_id := some 1, next_sequence_id := none, created_at := some 20 }

def c1db1 : DbState :=
  { store := [c1e1],
    changesetRow := { id := 7, updated_at := 20, closed_at := none, size := 1 } }

def c1res1 : List (ElementRef × Element) := [(⟨.node, -1⟩, c1e1)]

def c1e2 : Element :=
  { type := .node, id := 2, version := 1, visible := true, members := [],
    sequence_id := some 2, next_sequence_id := none, created_at := some 30 }

def c1db2 : DbState :=
  { store := [c1e1, c1e2],
    changesetRow := { id := 7, updated_at := 30, closed_at := none, size := 1 } }

def c1res2 : List (ElementRef × Element) := [(⟨.node, -1⟩, c1e2)]

/-- Witness for C1 at a concrete pair of sequential applies on an empty
store: the first apply assigns sequence id `0 + 1 + 0 = 1` and the second
apply's sequence id is strictly greater. -/
theorem apply_sequence_ids_strictly_increasing_witness :
    c1e1.sequence_id = some (currentSequenceIdOf c1db.store + 1 + ((0 : Nat) : Int))
      ∧ (1 : Int) < 2 := by
  have h := apply_sequence_ids_strictly_increasing 100 20 30 c1p c1q c1db c1db1 c1db2
    c1res1 c1res2 (by decide) rfl rfl
  exact ⟨h.1 0 (⟨.node, -1⟩, c1e1) rfl,
    h.2 0 0 (⟨.node, -1⟩, c1e1) (⟨.node, -1⟩, c1e2) 1 2 rfl rfl rfl rfl⟩

lemma all_eq_false_iff {α : Type} (p : α → Bool) (l : List α) :
    l.all p = false ↔ ∃ x ∈ l, p x = false := by
  induction l with
  | nil => simp
  | cons a t ih => cases hpa : p a <;> simp [hpa, ih]

/-- C3: the optimistic check considers exactly the `element_state` entries
with a non-null remote revision: it succeeds iff each such entry's observed
version is still the current stored revision; entries with a null remote are
not checked (appending them never changes the outcome); and when the check
fails on a nonempty batch, apply raises the version-conflict
`OptimisticDiffError` (so the transaction commits nothing: the error branch
carries no state). -/
theorem apply_optimistic_check :
    (∀ (store : List Element) (es : List (ElementRef × Option Element)),
      checkElementsLatest store es = true ↔
        ∀ pr ∈ es, ∀ r : Element, (pr : ElementRef × Option Element).2 = some r →
          isCurrentRevision store ⟨pr.1.type, pr.1.id, r.version⟩ = true) ∧
    (∀ (store : List Element) (es es2 : List (ElementRef × Option Element)),
      (∀ pr ∈ es2, (pr : ElementRef × Option Element).2 = none) →
      checkElementsLatest store (es ++ es2) = checkElementsLatest store es) ∧
    (∀ (maxSize now : Int) (p : OptimisticDiffPrepare) (db : DbState),
      p.apply_elements ≠ [] →
      checkElementsLatest db.store p.element_state = false →
      applyModel maxSize now p db = .error .elementOutdated) := by
  refine ⟨?_, ?_, ?_⟩
  · intro store es
    unfold checkElementsLatest checkIsLatest
    rw [List.all_eq_true]
    constructor
    · intro h pr hpr r hr
      refine h _ (List.mem_filterMap.mpr ⟨pr, hpr, ?_⟩)
      rw [hr]
      rfl
    · intro h v hv
      obtain ⟨pr, hpr, hf⟩ := List.mem_filterMap.mp hv
      obtain ⟨r, hr, hg⟩ := Option.map_eq_some'.mp hf
      rw [← hg]
      exact h pr hpr r hr
  · intro store es es2 hnull
    unfold checkElementsLatest
    congr 1
    rw [List.filterMap_append]
    have h2 : es2.filterMap (fun p => p.2.map
        (fun r => (⟨p.1.type, p.1.id, r.version⟩ : VersionedElementRef))) = [] := by
      rw [List.filterMap_eq_nil]
      intro pr hpr
      rw [hnull pr hpr]
      rfl
    rw [h2, List.append_nil]
  · intro maxSize now p db hne hchk
    unfold applyModel
    rw [if_neg (by simpa [List.isEmpty_iff] using hne), hchk]
    rfl

def c3remote : Element :=
  { type := .node, id := 1, version := 2, visible := true, members := [],
    sequence_id := some 2, next_sequence_id := none, created_at := some 0 }

def c3row : Element :=
  { type := .node, id := 1, version := 1, visible := true, members := [],
    sequence_id := some 1, next_sequence_id := none, created_at := some 0 }

def c3db : DbState :=
  { store := [c3row],
    changesetRow := { id := 7, updated_at := 10, closed_at := none, size := 1 } }

def c3upd : Element :=
  { type := .node, id := 1, version := 3, visible := true, members := [],
    sequence_id := none, next_sequence_id := none, created_at := none }

def c3p : OptimisticDiffPrepare :=
  { apply_elements := [(c3upd, ⟨.node, 1⟩)],
    element_state := [(⟨.node, 1⟩, some c3remote)],
    reference_check_element_refs := [], at_sequence_id := 0,
    changeset := { id := 7, updated_at := 10, closed_at := none, size := 1 } }

/-- Witness for C3: a store whose current revision of node 1 is version 1
while the snapshot observed version 2 fails the optimistic check and the
apply raises the version-conflict error. -/
theorem apply_optimistic_check_witness :
    applyModel 100 20 c3p c3db = .error .elementOutdated :=
  apply_optimistic_check.2.2 100 20 c3p c3db (by decide) (by decide)

/-- C4: when the prepare result's reference-check set is nonempty, apply
raises the still-referenced conflict error iff some revision committed after
`at_sequence_id` lists one of the set's refs among its members; when the set
is empty no reference check is performed and apply cannot fail with this
error. -/
theorem apply_reference_check :
    (∀ (store : List Element) (refs : List ElementRef) (a : Int),
      checkIsUnreferenced store refs a = false ↔
        ∃ e ∈ store, ∃ s : Int, e.sequence_id = some s ∧ a < s ∧
          ∃ m ∈ (e : Element).members, (⟨m.type, m.id⟩ : ElementRef) ∈ refs) ∧
    (∀ (maxSize now : Int) (p : OptimisticDiffPrepare) (db : DbState),
      p.apply_elements ≠ [] →
      checkElementsLatest db.store p.element_state = true →
      (applyModel maxSize now p db = .error .elementReferenced ↔
        (p.reference_check_element_refs ≠ [] ∧
          checkIsUnreferenced db.store p.reference_check_element_refs
            p.at_sequence_id = false))) := by
  constructor
  · intro store refs a
    unfold checkIsUnreferenced
    rw [all_eq_false_iff]
    constructor
    · rintro ⟨e, he, hfe⟩
      refine ⟨e, he, ?_⟩
      rcases hs : e.sequence_id with _ | s <;> rw [hs] at hfe
      · simp at hfe
      · refine ⟨s, rfl, ?_⟩
        have hfe2 : (if a < s then e.members.all
            (fun m => !(refs.any (fun r => decide (r = ⟨m.type, m.id⟩)))) else true)
            = false := hfe
        by_cases ha : a < s
        · rw [if_pos ha] at hfe2
          refine ⟨ha, ?_⟩
          obtain ⟨m, hm, hgm⟩ := (all_eq_false_iff _ _).mp hfe2
          refine ⟨m, hm, ?_⟩
          have hany : refs.any (fun r => decide (r = ⟨m.type, m.id⟩)) = true := by
            rcases hb : refs.any (fun r => decide (r = ⟨m.type, m.id⟩)) with _ | _
            · rw [hb] at hgm
              simp at hgm
            · rfl
          obtain ⟨r, hr, hdr⟩ := List.any_eq_true.mp hany
          have hre : r = ⟨m.type, m.id⟩ := of_decide_eq_true hdr
          rw [← hre]
          exact hr
        · rw [if_neg ha] at hfe2
          simp at hfe2
    · rintro ⟨e, he, s, hs, ha, m, hm, hr⟩
      refine ⟨e, he, ?_⟩
      show (match e.sequence_id with
        | some s => if a < s then e.members.all
            (fun m => !(refs.any (fun r => decide (r = ⟨m.type, m.id⟩)))) else true
        | none => true) = false
      rw [hs]
      show (if a < s then e.members.all
          (fun m => !(refs.any (fun r => decide (r = ⟨m.type, m.id⟩)))) else true)
          = false
      rw [if_pos ha, all_eq_false_iff]
      refine ⟨m, hm, ?_⟩
      have hany : refs.any (fun r => decide (r = ⟨m.type, m.id⟩)) = true :=
        List.any_eq_true.mpr ⟨⟨m.type, m.id⟩, hr, by simp⟩
      rw [hany]
      rfl
  · intro maxSize now p db hne hlat
    unfold applyModel
    rw [if_neg (by simpa [List.isEmpty_iff] using hne), hlat]
    have hnt : (!true) = false := rfl
    rw [hnt, if_neg (by simp)]
    rcases hcond : (!p.reference_check_element_refs.isEmpty
        && !(checkIsUnreferenced db.store p.reference_check_element_refs
              p.at_sequence_id)) with _ | _
    · rw [if_neg (by simp)]
      constructor
      · intro habs
        exfalso
        rcases hcs : updateChangesetRow db.changesetRow.updated_at now maxSize
            p.changeset with _ | newCs <;> rw [hcs] at habs
        · simp at habs
        · rcases hue : updateElementsPrepared (currentSequenceIdOf db.store)
              (currentTypedIds db.store) now p.apply_elements with _ | pr <;>
            rw [hue] at habs
          · simp at habs
          · obtain ⟨ins, ut⟩ := pr
            simp at habs
      · rintro ⟨h1, h2⟩
        exfalso
        rw [h2] at hcond
        have hie : p.reference_check_element_refs.isEmpty = false := by
          rcases hbe : p.reference_check_element_refs.isEmpty with _ | _
          · rfl
          · exact absurd (List.isEmpty_iff.mp hbe) h1
        rw [hie] at hcond
        simp at hcond
    · rw [if_pos rfl]
      constructor
      · intro _
        have hand := Bool.and_eq_true_iff.mp hcond
        constructor
        · intro habs
          rw [habs] at hand
          simp at hand
        · have h2 := hand.2
          rcases hcu : checkIsUnreferenced db.store p.reference_check_element_refs
              p.at_sequence_id with _ | _
          · rfl
          · rw [hcu] at h2
            simp at h2
      · intro _
        rfl

def c4way : Element :=
  { type := .way, id := 9, version := 1, visible := true,
    members := [{ type := .node, id := 1, role := "", sequence_id := some 5 }],
    sequence_id := some 5, next_sequence_id := none, created_at := some 0 }

def c4db : DbState :=
  { store := [c3row, c4way],
    changesetRow := { id := 7, updated_at := 10, closed_at := none, size := 1 } }

def c4del : Element :=
  { type := .node, id := 1, version := 2, visible := false, members := [],
    sequence_id := none, next_sequence_id := none, created_at := none }

def c4p : OptimisticDiffPrepare :=
  { apply_elements := [(c4del, ⟨.node, 1⟩)],
    element_state := [(⟨.node, 1⟩, some c3row)],
    reference_check_element_refs := [⟨.node, 1⟩], at_sequence_id := 2,
    changeset := { id := 7, updated_at := 10, closed_at := none, size := 1 } }

/-- Witness for C4: deleting node 1 while way 9 (committed at sequence id 5,
after the snapshot point 2) still references it raises the still-referenced
error. -/
theorem apply_reference_check_witness :
    applyModel 100 20 c4p c4db = .error .elementReferenced :=
  (apply_reference_check.2 100 20 c4p c4db (by decide) (by decide)).mpr
    ⟨by decide, by decide⟩

lemma updateChangesetRow_some {stored now maxSize : Int} {c c2 : Changeset}
    (h : updateChangesetRow stored now maxSize c = some c2) :
    c.updated_at = stored
      ∧ c2 = autoCloseOnSize maxSize now { c with updated_at := now } := by
  unfold updateChangesetRow at h
  by_cases he : c.updated_at = stored
  · rw [if_neg (by simpa using he)] at h
    exact ⟨he, by simpa using h.symm⟩
  · rw [if_pos he] at h
    exact absurd h (by simp)

/-- C5: if the target changeset's stored `updated_at` differs from the value
observed at prepare time the apply raises a conflict error (the error branch
carries no state, so nothing is written); otherwise the committed changeset
row is the prepare-time changeset with `updated_at` set to the commit time
and auto-close evaluated, and auto-close closes the changeset exactly when
its size exceeds the role-dependent threshold. -/
theorem apply_changeset_check_and_update :
    (∀ (maxSize now : Int) (p : OptimisticDiffPrepare) (db : DbState),
      p.apply_elements ≠ [] →
      checkElementsLatest db.store p.element_state = true →
      (p.reference_check_element_refs = [] ∨
        checkIsUnreferenced db.store p.reference_check_element_refs
          p.at_sequence_id = true) →
      p.changeset.updated_at ≠ db.changesetRow.updated_at →
      applyModel maxSize now p db = .error .changesetOutdated) ∧
    (∀ (maxSize now : Int) (p : OptimisticDiffPrepare) (db db1 : DbState)
        (res : List (ElementRef × Element)),
      p.apply_elements ≠ [] →
      applyModel maxSize now p db = .ok (db1, res) →
      p.changeset.updated_at = db.changesetRow.updated_at ∧
        db1.changesetRow
          = autoCloseOnSize maxSize now { p.changeset with updated_at := now }) ∧
    (∀ (maxSize now : Int) (c : Changeset),
      (autoCloseOnSize maxSize now c).closed_at
        = if maxSize < c.size then some now else c.closed_at) := by
  refine ⟨?_, ?_, ?_⟩
  · intro maxSize now p db hne hlat href hcs
    unfold applyModel
    rw [if_neg (by simpa [List.isEmpty_iff] using hne), hlat]
    have hnt : (!true) = false := rfl
    rw [hnt, if_neg (by simp)]
    have hcond : (!p.reference_check_element_refs.isEmpty
        && !(checkIsUnreferenced db.store p.reference_check_element_refs
              p.at_sequence_id)) = false := by
      rcases href with href | href
      · have : p.reference_check_element_refs.isEmpty = true := by simp [href]
        rw [this]
        rfl
      · rw [href]
        simp
    rw [hcond, if_neg (by simp)]
    have hnone : updateChangesetRow db.changesetRow.updated_at now maxSize
        p.changeset = none := by
      unfold updateChangesetRow
      rw [if_pos (by simpa using hcs)]
    rw [hnone]
  · intro maxSize now p db db1 res hne h
    obtain ⟨-, -, newCs, inserted, uti, hcs, -, hdb1, -⟩ := applyModel_ok hne h
    obtain ⟨heq, hrow⟩ := updateChangesetRow_some hcs
    refine ⟨heq, ?_⟩
    rw [hdb1, hrow]
  · intro maxSize now c
    by_cases h : maxSize < c.size <;> simp [autoCloseOnSize, h]

def c5p : OptimisticDiffPrepare :=
  { apply_elements := [(c1el, ⟨.node, -1⟩)], element_state := [],
    reference_check_element_refs := [], at_sequence_id := 0,
    changeset := { id := 7, updated_at := 11, closed_at := none, size := 1 } }

/-- Witness for C5: a changeset observed at `updated_at = 11` while the
stored row says `10` raises the changeset conflict error; and the successful
apply of `c1p` commits the changeset row with `updated_at = 20` and
auto-close evaluated against the threshold. -/
theorem apply_changeset_check_and_update_witness :
    applyModel 100 20 c5p c1db = .error .changesetOutdated ∧
    c1db1.changesetRow
      = autoCloseOnSize 100 20 { c1p.changeset with updated_at := 20 } :=
  ⟨apply_changeset_check_and_update.1 100 20 c5p c1db (by decide) (by decide)
      (Or.inl (by decide)) (by decide),
   (apply_changeset_check_and_update.2.1 100 20 c1p c1db c1db1 c1res1 (by decide)
      rfl).2⟩

lemma currentTypedIds_ge {store : List Element} {t : ElementType} {e : Element}
    (he : e ∈ store) (ht : e.type = t) : e.id ≤ currentTypedIds store t := by
  unfold currentTypedIds
  apply mem_le_maxOr0
  exact List.mem_map.mpr ⟨e, List.mem_filter.mpr ⟨he, by simp [ht]⟩, rfl⟩

def c2node : Element :=
  { type := .node, id := -1, version := 1, visible := true, members := [],
    sequence_id := none, next_sequence_id := none, created_at := none }

def c2way : Element :=
  { type := .way, id := -2, version := 1, visible := true,
    members := [{ type := .node, id := -1, role := "", sequence_id := none }],
    sequence_id := none, next_sequence_id := none, created_at := none }

def c2nodeOut : Element :=
  { type := .node, id := 1, version := 1, visible := true, members := [],
    sequence_id := some 1, next_sequence_id := none, created_at := some 5 }

def c2wayOut : Element :=
  { type := .way, id := 1, version := 1, visible := true,
    members := [{ type := .node, id := 1, role := "", sequence_id := some 2 }],
    sequence_id := some 2, next_sequence_id := none, created_at := some 5 }

/-- C2: placeholder resolution during apply.  First conjunct: at the first
occurrence of a placeholder ref the per-type counter value plus one is
assigned, the binding is recorded, and the counter advances.  Second
conjunct: every later occurrence of the same placeholder ref in the batch
receives the same assigned id.  Third and fourth conjuncts: the counter is
seeded from the current maximum id of the type, which is `0` on an empty
store and bounds every stored id of the type.  Fifth conjunct: for the batch
[create node `-1`; create way `-2` with member node `-1`] on an empty store
the way's committed member id equals the node's freshly assigned id `1`. -/
theorem apply_placeholder_id_assignment :
    (∀ (now seq : Int) (st : LoopState) (p : Element × ElementRef),
      p.1.id < 0 → alookup st.assignedIdMap p.2 = none →
      stepAsgId st p.1 p.2 = st.currentIdMap p.1.type + 1 ∧
      (applyStep now seq st p).currentIdMap p.1.type
        = st.currentIdMap p.1.type + 1 ∧
      alookup (applyStep now seq st p).assignedIdMap p.2
        = some (st.currentIdMap p.1.type + 1)) ∧
    (∀ (curSeq : Int) (curIds : ElementType → Int) (now : Int)
        (els : List (Element × ElementRef)),
      (∀ q ∈ els, (q : Element × ElementRef).1.type = q.2.type) →
      ∀ (i j : Nat) (pi pj : Element × ElementRef) (ei ej : Element),
        els.get? i = some pi → els.get? j = some pj → pi.2 = pj.2 →
        pi.1.id < 0 → pj.1.id < 0 →
        (processElements curSeq curIds now els).done.get? i = some ei →
        (processElements curSeq curIds now els).done.get? j = some ej →
        ei.id = ej.id) ∧
    (∀ t, currentTypedIds [] t = 0) ∧
    (∀ (store : List Element) (t : ElementType) (e : Element),
      e ∈ store → e.type = t → e.id ≤ currentTypedIds store t) ∧
    (updateElementsPrepared 0 (fun _ => 0) 5
        [(c2node, ⟨.node, -1⟩), (c2way, ⟨.way, -2⟩)]
      = some ([c2nodeOut, c2wayOut], [])) := by
  refine ⟨?_, ?_, fun t => rfl, ?_, rfl⟩
  · intro now seq st p hneg hnone
    refine ⟨?_, ?_, ?_⟩
    · unfold stepAsgId
      rw [if_pos hneg, hnone]
    · rw [applyStep_currentIdMap, if_pos ⟨hneg, hnone⟩]
      simp
    · rw [applyStep_assignedIdMap, if_pos ⟨hneg, hnone⟩, alookup_append, hnone]
      show Option.or none (alookup [(p.2, st.currentIdMap p.1.type + 1)] p.2)
        = some (st.currentIdMap p.1.type + 1)
      simp [alookup]
  · intro curSeq curIds now els htp i j pi pj ei ej hpi hpj href hni hnj hei hej
    have inv := processElements_inv curSeq curIds now els htp
    obtain ⟨vi, hdi, hvi, -⟩ := inv.shape i pi hpi
    obtain ⟨vj, hdj, hvj, -⟩ := inv.shape j pj hpj
    rw [hei] at hdi
    rw [hej] at hdj
    have hiv : ei.id = vi := by
      have he := Option.some.inj hdi
      rw [he]
    have hjv : ej.id = vj := by
      have he := Option.some.inj hdj
      rw [he]
    have hlook := hvi hni
    rw [href] at hlook
    rw [hvj hnj] at hlook
    rw [hiv, hjv]
    exact (Option.some.inj hlook).symm
  · intro store t e he ht
    exact currentTypedIds_ge he ht

/-- Witness for C2's general conjuncts at concrete inputs (the closed fifth
conjunct is already concrete): the first occurrence of placeholder node `-1`
in `c1p`'s batch receives id `0 + 1 = 1`, and reuse holds trivially at
`i = j = 0`. -/
theorem apply_placeholder_id_assignment_witness :
    stepAsgId ⟨[], [], [], [], fun _ => 0⟩ c2node ⟨.node, -1⟩ = 1 ∧
    currentTypedIds [] .node = 0 := by
  constructor
  · have h := apply_placeholder_id_assignment.1 5 1 ⟨[], [], [], [], fun _ => 0⟩
      (c2node, ⟨.node, -1⟩) (by decide) rfl
    exact h.1
  · exact apply_placeholder_id_assignment.2.2.1 .node

lemma succIn_adjacent {P : List Nat} {i j : Nat} (hpw : P.Pairwise (· < ·))
    (hi : i ∈ P) (hj : j ∈ P) (hij : i < j)
    (hbetween : ∀ x ∈ P, ¬ (i < x ∧ x < j)) : succIn P i = some j := by
  induction P with
  | nil => simp at hi
  | cons a t iht =>
    cases t with
    | nil =>
      have hia : i = a := by simpa using hi
      have hja : j = a := by simpa using hj
      omega
    | cons b t2 =>
      have hpw2 := List.pairwise_cons.mp hpw
      by_cases hia : i = a
      · have hjbt : j ∈ b :: t2 := by
          rcases List.mem_cons.mp hj with hja | hjbt
          · omega
          · exact hjbt
        have hbj : b ≤ j := by
          rcases List.mem_cons.mp hjbt with hjb | hjt2
          · omega
          · have hpw3 := List.pairwise_cons.mp hpw2.2
            have := hpw3.1 j hjt2
            omega
        have hab : a < b := hpw2.1 b (List.mem_cons_self b t2)
        have hbeq : b = j := by
          by_contra hbne
          exact hbetween b (List.mem_cons_of_mem a (List.mem_cons_self b t2))
            ⟨by omega, by omega⟩
        simp [succIn, hia, hbeq]
      · have hibt : i ∈ b :: t2 := by
          rcases List.mem_cons.mp hi with hia2 | hibt
          · exact absurd hia2 hia
          · exact hibt
        have hjbt : j ∈ b :: t2 := by
          rcases List.mem_cons.mp hj with hja | hjbt
          · subst hja
            have := hpw2.1 i hibt
            omega
          · exact hjbt
        simp only [succIn, if_neg hia]
        exact iht hpw2.2 hibt hjbt
          (fun x hx => hbetween x (List.mem_cons_of_mem a hx))

lemma nextAfter_eq_some {refs : List ElementRef} {i j : Nat} {r : ElementRef}
    (hi : refs.get? i = some r) (hj : refs.get? j = some r) (hij : i < j)
    (hbetween : ∀ k, i < k → k < j → refs.get? k ≠ some r) :
    nextAfter refs i = some j := by
  unfold nextAfter
  rw [hi]
  have hiP : i ∈ occPositionsFrom r refs 0 := by
    have := mem_occPositionsFrom (b := 0) hi
    simpa using this
  have hjP : j ∈ occPositionsFrom r refs 0 := by
    have := mem_occPositionsFrom (b := 0) hj
    simpa using this
  apply succIn_adjacent (occPositionsFrom_pairwise r refs 0) hiP hjP hij
  intro x hx hbx
  have hgx := occPositionsFrom_get? hx
  simp only [Nat.sub_zero] at hgx
  exact hbetween x hbx.1 hbx.2 hgx

lemma minByVersion_none_iff {l : List Element} : minByVersion l = none ↔ l = [] := by
  cases l with
  | nil => simp [minByVersion]
  | cons e t =>
    simp only [minByVersion]
    rcases h : minByVersion t with _ | m
    · simp
    · constructor
      · intro hc
        have hc2 : (if e.version ≤ m.version then some e else some m) = none := hc
        split at hc2 <;> exact Option.noConfusion hc2
      · intro hc
        exact List.noConfusion hc

lemma minByVersion_spec {l : List Element} {m : Element} (h : minByVersion l = some m) :
    m ∈ l ∧ ∀ x ∈ l, m.version ≤ x.version := by
  induction l generalizing m with
  | nil => simp [minByVersion] at h
  | cons e t ih =>
    simp only [minByVersion] at h
    rcases ht : minByVersion t with _ | m2 <;> rw [ht] at h
    · have hm : m = e := by simpa using h.symm
      subst hm
      have htn : t = [] := minByVersion_none_iff.mp ht
      subst htn
      exact ⟨List.mem_cons_self m [], by simp⟩
    · obtain ⟨hm2, hall⟩ := ih ht
      have h2 : (if e.version ≤ m2.version then some e else some m2) = some m := h
      by_cases hev : e.version ≤ m2.version
      · rw [if_pos hev] at h2
        have hm : m = e := by simpa using h2.symm
        subst hm
        refine ⟨List.mem_cons_self m t, ?_⟩
        intro x hx
        rcases List.mem_cons.mp hx with rfl | hxt
        · exact le_rfl
        · exact le_trans hev (hall x hxt)
      · rw [if_neg hev] at h2
        have hm : m = m2 := by simpa using h2.symm
        subst hm
        refine ⟨List.mem_cons_of_mem e hm2, ?_⟩
        intro x hx
        rcases List.mem_cons.mp hx with rfl | hxt
        · omega
        · exact hall x hxt

/-- C6: version-chain linking.  First conjunct: an updated element whose
immediately preceding revision is an earlier element of the same batch links
that predecessor's `next_sequence_id` directly to its own sequence id.
Second conjunct: a later in-batch occurrence contributes no entry to
`update_type_ids`, so no separate database update is issued for it; an
element that is the first batch occurrence of its ref and has version above
1 contributes exactly its `(type, id)` entry.  Third conjunct: the batched
update rewrites exactly the rows satisfying its condition — stored sequence
id not above the pre-batch current one, null `next_sequence_id`, and
`(type, id)` listed — setting `next_sequence_id` to the sequence id of the
lowest-higher-version revision of the same ref in the flushed table, and
leaves every other row unchanged.  Fourth conjunct: the lowest-higher-version
subquery returns a stored candidate of minimal version. -/
theorem apply_version_chain_linking :
    (∀ (curSeq : Int) (curIds : ElementType → Int) (now : Int)
        (els : List (Element × ElementRef)),
      (∀ q ∈ els, (q : Element × ElementRef).1.type = q.2.type) →
      ∀ (i j : Nat) (pi pj : Element × ElementRef) (ei : Element),
        els.get? i = some pi → els.get? j = some pj → i < j → pi.2 = pj.2 →
        (∀ (k : Nat) (pk : Element × ElementRef), i < k → k < j →
          els.get? k = some pk → pk.2 ≠ pi.2) →
        (processElements curSeq curIds now els).done.get? i = some ei →
        ei.next_sequence_id = some (curSeq + 1 + (j : Int))) ∧
    (∀ (seen : List ElementRef) (els1 : List (Element × ElementRef))
        (p : Element × ElementRef),
      (p.2 ∈ els1.map Prod.snd → utiOf seen (els1 ++ [p]) = utiOf seen els1) ∧
      (p.2 ∉ seen → p.2 ∉ els1.map Prod.snd → 1 < p.1.version →
        utiOf seen (els1 ++ [p]) = utiOf seen els1 ++ [(p.1.type, p.1.id)])) ∧
    (∀ (curSeq : Int) (uti : List (ElementType × Int)) (table : List Element)
        (k : Nat) (e : Element), table.get? k = some e →
      (dbLinkUpdate curSeq uti table).get? k
        = some (if matchesUpdateCond curSeq uti e then
            { e with next_sequence_id :=
                lowestHigherVersionSeq table e.type e.id e.version }
          else e)) ∧
    (∀ (table : List Element) (t : ElementType) (i v : Int) (s : Int),
      lowestHigherVersionSeq table t i v = some s →
      ∃ m ∈ table, m.type = t ∧ m.id = i ∧ v < m.version ∧ m.sequence_id = some s ∧
        ∀ x ∈ table, x.type = t → x.id = i → v < x.version →
          m.version ≤ x.version) := by
  refine ⟨?_, ?_, ?_, ?_⟩
  · intro curSeq curIds now els htp i j pi pj ei hpi hpj hij href hbet hei
    have inv := processElements_inv curSeq curIds now els htp
    obtain ⟨vi, hdi, -, -⟩ := inv.shape i pi hpi
    have hgi : (els.map Prod.snd).get? i = some pi.2 := by
      rw [get?_map_own, hpi]
      rfl
    have hgj : (els.map Prod.snd).get? j = some pi.2 := by
      rw [get?_map_own, hpj]
      rw [href]
      rfl
    have hna : nextAfter (els.map Prod.snd) i = some j := by
      apply nextAfter_eq_some hgi hgj hij
      intro k hik hkj hgk
      rw [get?_map_own] at hgk
      rcases hpk : els.get? k with _ | pk <;> rw [hpk] at hgk
      · simp at hgk
      · have : pk.2 = pi.2 := by simpa using hgk
        exact hbet k pk hik hkj hpk this
    rw [hei] at hdi
    have he := Option.some.inj hdi
    rw [he, hna]
  · intro seen els1 p
    constructor
    · intro hmem
      rw [utiOf_append_singleton, if_pos (Or.inr (Or.inl hmem)), List.append_nil]
    · intro h1 h2 h3
      rw [utiOf_append_singleton, if_neg (by
        intro hc
        rcases hc with hc | hc | hc
        · exact h1 hc
        · exact h2 hc
        · omega)]
  · intro curSeq uti table k e hk
    unfold dbLinkUpdate linkFn
    rw [get?_map_own, hk]
    rfl
  · intro table t i v s h
    unfold lowestHigherVersionSeq at h
    rcases hm : minByVersion (table.filter (fun e =>
        decide (e.type = t) && decide (e.id = i) && decide (v < e.version)))
        with _ | m <;> rw [hm] at h
    · simp at h
    · obtain ⟨hmem, hmin⟩ := minByVersion_spec hm
      have hmf := List.mem_filter.mp hmem
      simp only [Bool.and_eq_true, decide_eq_true_eq] at hmf
      refine ⟨m, hmf.1, hmf.2.1.1, hmf.2.1.2, hmf.2.2, by simpa using h, ?_⟩
      intro x hx hxt hxi hxv
      exact hmin x (List.mem_filter.mpr ⟨hx, by simp [hxt, hxi, hxv]⟩)

def c6upd3 : Element :=
  { type := .node, id := 1, version := 3, visible := true, members := [],
    sequence_id := none, next_sequence_id := none, created_at := none }

def c6upd4 : Element :=
  { type := .node, id := 1, version := 4, visible := true, members := [],
    sequence_id := none, next_sequence_id := none, created_at := none }

/-- Witness for C6: in the batch [update node 1 to v3; update node 1 to v4]
over a store whose current sequence id is 2, the first revision links
in-batch to the second (`next_sequence_id = 2 + 1 + 1 = 4`); and a matching
stored row is rewritten by the batched update. -/
theorem apply_version_chain_linking_witness :
    (∃ ei, (processElements 2 (fun _ => 1) 9
        [(c6upd3, ⟨.node, 1⟩), (c6upd4, ⟨.node, 1⟩)]).done.get? 0 = some ei
      ∧ ei.next_sequence_id = some 4) ∧
    (dbLinkUpdate 2 [(.node, 1)] [c3row]).get? 0
      = some (if matchesUpdateCond 2 [(.node, 1)] c3row then
          { c3row with next_sequence_id :=
              lowestHigherVersionSeq [c3row] c3row.type c3row.id c3row.version }
        else c3row) := by
  constructor
  · refine ⟨{ c6upd3 with
        sequence_id := some 3,
        created_at := some 9,
        next_sequence_id := some 4 }, rfl, ?_⟩
    have h := apply_version_chain_linking.1 2 (fun _ => 1) 9
      [(c6upd3, ⟨.node, 1⟩), (c6upd4, ⟨.node, 1⟩)] (by decide)
      0 1 (c6upd3, ⟨.node, 1⟩) (c6upd4, ⟨.node, 1⟩) _ rfl rfl (by decide) rfl
      (fun k pk h1 h2 _ => by omega) rfl
    simpa using h
  · exact apply_version_chain_linking.2.2.1 2 [(.node, 1)] [c3row] 0 c3row rfl

/-! ### Tag decoding (`app/format/api06_element.py`) -/

/-- One insertion into a Python dict held as an association list in key
insertion order: overwrite the value in place when the key exists, else
append. -/
def dictInsert (d : List (String × String)) (kv : String × String) :
    List (String × String) :=
  if kv.1 ∈ d.map Prod.fst then
    d.map (fun p => if p.1 = kv.1 then (p.1, kv.2) else p)
  else d ++ [kv]

/-- Python `dict(items)`. -/
def dictOfList (items : List (String × String)) : List (String × String) :=
  items.foldl dictInsert []

/-- `_decode_tags_unsafe`: build `dict(items)` from the `(k, v)` pairs and
raise `ValueError` (modelled `none`) when the dict is shorter than the item
list, i.e. when a key occurred twice. -/
def decode_tags_unsafe (tags : List (String × String)) :
    Option (List (String × String)) :=
  if tags.length ≠ (dictOfList tags).length then none else some (dictOfList tags)

lemma dictInsert_keys (d : List (String × String)) (kv : String × String) :
    (dictInsert d kv).map Prod.fst
      = if kv.1 ∈ d.map Prod.fst then d.map Prod.fst
        else d.map Prod.fst ++ [kv.1] := by
  unfold dictInsert
  split
  · rw [List.map_map]
    apply List.map_congr_left
    intro p _
    by_cases hp : p.1 = kv.1 <;> simp [Function.comp, hp]
  · simp

lemma dictInsert_length (d : List (String × String)) (kv : String × String) :
    (dictInsert d kv).length
      = if kv.1 ∈ d.map Prod.fst then d.length else d.length + 1 := by
  unfold dictInsert
  split
  · simp
  · simp

lemma dictInsert_key_mono {d : List (String × String)} {k : String}
    (kv : String × String) (h : k ∈ d.map Prod.fst) :
    k ∈ (dictInsert d kv).map Prod.fst := by
  rw [dictInsert_keys]
  split
  · exact h
  · exact List.mem_append_left _ h

lemma dictInsert_key_self (d : List (String × String)) (kv : String × String) :
    kv.1 ∈ (dictInsert d kv).map Prod.fst := by
  rw [dictInsert_keys]
  split
  · assumption
  · exact List.mem_append_right _ (by simp)

lemma foldl_dictInsert_nodup (l : List (String × String)) :
    ∀ d : List (String × String),
      (∀ k ∈ l.map Prod.fst, k ∉ d.map Prod.fst) → (l.map Prod.fst).Nodup →
      l.foldl dictInsert d = d ++ l := by
  induction l with
  | nil => intro d _ _; simp
  | cons kv t ih =>
    intro d hdis hnd
    have hk : kv.1 ∉ d.map Prod.fst := hdis kv.1 (by simp)
    have hins : dictInsert d kv = d ++ [kv] := by
      unfold dictInsert
      rw [if_neg hk]
    show t.foldl dictInsert (dictInsert d kv) = d ++ kv :: t
    rw [hins, ih (d ++ [kv]) ?_ ?_]
    · simp
    · intro k hkt
      simp only [List.map_append, List.mem_append, not_or]
      refine ⟨hdis k (by simp [hkt]), ?_⟩
      simp only [List.map_cons, List.nodup_cons] at hnd
      intro hcon
      have : k = kv.1 := by simpa using hcon
      rw [this] at hkt
      exact hnd.1 hkt
    · simp only [List.map_cons, List.nodup_cons] at hnd
      exact hnd.2

lemma foldl_dictInsert_length_le (l : List (String × String)) :
    ∀ d : List (String × String),
      (l.foldl dictInsert d).length ≤ d.length + l.length := by
  induction l with
  | nil => intro d; simp
  | cons kv t ih =>
    intro d
    show (t.foldl dictInsert (dictInsert d kv)).length ≤ _
    have h1 := ih (dictInsert d kv)
    have h2 := dictInsert_length d kv
    split at h2 <;> simp only [List.length_cons] <;> omega

lemma foldl_dictInsert_length_lt (l : List (String × String)) :
    ∀ d : List (String × String),
      ((∃ k ∈ l.map Prod.fst, k ∈ d.map Prod.fst) ∨ ¬ (l.map Prod.fst).Nodup) →
      (l.foldl dictInsert d).length < d.length + l.length := by
  induction l with
  | nil =>
    intro d h
    rcases h with ⟨k, hk, -⟩ | h
    · simp at hk
    · simp at h
  | cons kv t ih =>
    intro d h
    show (t.foldl dictInsert (dictInsert d kv)).length < _
    by_cases hk : kv.1 ∈ d.map Prod.fst
    · have h1 := foldl_dictInsert_length_le t (dictInsert d kv)
      have h2 := dictInsert_length d kv
      rw [if_pos hk] at h2
      simp only [List.length_cons]
      omega
    · have h2 := dictInsert_length d kv
      rw [if_neg hk] at h2
      have hrec : (∃ k ∈ t.map Prod.fst, k ∈ (dictInsert d kv).map Prod.fst)
          ∨ ¬ (t.map Prod.fst).Nodup := by
        rcases h with ⟨k, hkl, hkd⟩ | h
        · have hkl2 : k = kv.1 ∨ k ∈ t.map Prod.fst := by
            simp only [List.map_cons, List.mem_cons] at hkl
            exact hkl
          rcases hkl2 with rfl | hkt
          · exact absurd hkd hk
          · exact Or.inl ⟨k, hkt, dictInsert_key_mono kv hkd⟩
        · simp only [List.map_cons, List.nodup_cons, not_and_or] at h
          rcases h with h | h
          · push_neg at h
            exact Or.inl ⟨kv.1, h, dictInsert_key_self d kv⟩
          · exact Or.inr h
      have h1 := ih (dictInsert d kv) hrec
      simp only [List.length_cons]
      omega

/-- C9: decoding an element's tag list raises an error iff the list has two
entries with the same key; with pairwise-distinct keys it succeeds and
returns exactly the listed key-to-value mapping. -/
theorem decode_tags_duplicate_keys :
    (∀ tags : List (String × String), ¬ (tags.map Prod.fst).Nodup →
      decode_tags_unsafe tags = none) ∧
    (∀ tags : List (String × String), (tags.map Prod.fst).Nodup →
      decode_tags_unsafe tags = some tags) := by
  constructor
  · intro tags hdup
    unfold decode_tags_unsafe
    have hlt : (dictOfList tags).length < tags.length := by
      have := foldl_dictInsert_length_lt tags [] (Or.inr hdup)
      simpa [dictOfList] using this
    rw [if_pos (by omega)]
  · intro tags hnd
    unfold decode_tags_unsafe
    have heq : dictOfList tags = tags := by
      have := foldl_dictInsert_nodup tags [] (by simp) hnd
      simpa [dictOfList] using this
    rw [heq, if_neg (by omega)]

/-- Witness for C9: a duplicated key `a` is rejected, distinct keys decode
to the same mapping. -/
theorem decode_tags_duplicate_keys_witness :
    decode_tags_unsafe [("a", "1"), ("a", "2")] = none ∧
    decode_tags_unsafe [("a", "1"), ("b", "2")] = some [("a", "1"), ("b", "2")] :=
  ⟨decode_tags_duplicate_keys.1 [("a", "1"), ("a", "2")] (by decide),
   decode_tags_duplicate_keys.2 [("a", "1"), ("b", "2")] (by decide)⟩

/-! ### The per-ref store invariant (C7) -/

/-- The stored revisions of one ref. -/
def rowsOf (table : List Element) (t : ElementType) (i : Int) : List Element :=
  table.filter (fun e => decide (e.type = t) && decide (e.id = i))

/-- `m` consecutive integers starting at `v0`. -/
def versionsRange (v0 : Int) (m : Nat) : List Int :=
  (List.range m).map (fun k : Nat => v0 + (k : Int))

/-- A list paired with positions starting at `b`. -/
def indexed {α : Type} : List α → Nat → List (Nat × α)
  | [], _ => []
  | a :: t, b => (b, a) :: indexed t (b + 1)

lemma indexed_length {α : Type} (l : List α) (b : Nat) :
    (indexed l b).length = l.length := by
  induction l generalizing b with
  | nil => rfl
  | cons a t ih => simp [indexed, ih]

lemma indexed_get? {α : Type} (l : List α) (b k : Nat) :
    (indexed l b).get? k = (l.get? k).map (fun a => (b + k, a)) := by
  induction l generalizing b k with
  | nil => cases k <;> rfl
  | cons a t ih =>
    cases k with
    | zero => simp [indexed]
    | succ m =>
      show (indexed t (b + 1)).get? m
        = Option.map (fun a => (b + (m + 1), a)) (t.get? m)
      rw [ih (b + 1) m]
      rcases t.get? m with _ | x
      · rfl
      · show some ((b + 1) + m, x) = some (b + (m + 1), x)
        have he : (b + 1) + m = b + (m + 1) := by omega
        rw [he]

lemma indexed_mem {α : Type} {l : List α} {b : Nat} {x : Nat × α}
    (h : x ∈ indexed l b) : b ≤ x.1 ∧ l.get? (x.1 - b) = some x.2 := by
  induction l generalizing b with
  | nil => simp [indexed] at h
  | cons a t ih =>
    rcases List.mem_cons.mp h with rfl | h2
    · simp
    · obtain ⟨hb, hg⟩ := ih h2
      refine ⟨by omega, ?_⟩
      have hx : x.1 - b = (x.1 - (b + 1)) + 1 := by omega
      rw [hx]
      simpa using hg

lemma indexed_filter_snd {α : Type} (l : List α) (b : Nat) (p : α → Bool) :
    ((indexed l b).filter (fun x => p x.2)).map Prod.snd = l.filter p := by
  induction l generalizing b with
  | nil => rfl
  | cons a t ih =>
    show (((b, a) :: indexed t (b + 1)).filter (fun x => p x.2)).map Prod.snd
        = (a :: t).filter p
    rw [List.filter_cons, List.filter_cons]
    rcases hpa : p a with _ | _
    · simpa [hpa] using ih (b + 1)
    · simpa [hpa] using ih (b + 1)

lemma indexed_filter_fst (l : List (Element × ElementRef)) (b : Nat) (r : ElementRef) :
    ((indexed l b).filter (fun x => decide (x.2.2 = r))).map Prod.fst
      = occPositionsFrom r (l.map Prod.snd) b := by
  induction l generalizing b with
  | nil => rfl
  | cons a t ih =>
    show (((b, a) :: indexed t (b + 1)).filter
        (fun x => decide (x.2.2 = r))).map Prod.fst
      = (if a.2 = r then [b] else []) ++ occPositionsFrom r (t.map Prod.snd) (b + 1)
    rw [List.filter_cons]
    by_cases ha : a.2 = r
    · simpa [ha] using ih (b + 1)
    · simpa [ha] using ih (b + 1)

lemma forall2_of_get {α β : Type} {R : α → β → Prop} :
    ∀ {l1 : List α} {l2 : List β}, l1.length = l2.length →
      (∀ (k : Nat) (a : α) (b : β), l1.get? k = some a → l2.get? k = some b → R a b) →
      List.Forall₂ R l1 l2
  | [], [], _, _ => List.Forall₂.nil
  | [], b :: t2, hlen, _ => by simp at hlen
  | a :: t1, [], hlen, _ => by simp at hlen
  | a :: t1, b :: t2, hlen, h => by
      refine List.Forall₂.cons (h 0 a b rfl rfl) ?_
      exact forall2_of_get (by simpa using hlen)
        (fun k x y hx hy => h (k + 1) x y (by simpa using hx) (by simpa using hy))

lemma forall2_filter {α β : Type} {R : α → β → Prop} {p : α → Bool} {q : β → Bool}
    {l1 : List α} {l2 : List β} (h : List.Forall₂ R l1 l2)
    (hpq : ∀ a b, R a b → a ∈ l1 → (p a = true ↔ q b = true)) :
    List.Forall₂ R (l1.filter p) (l2.filter q) := by
  induction h with
  | nil => exact List.Forall₂.nil
  | cons hab htl ih =>
    rename_i a b t1 t2
    have ih2 := ih (fun x y hxy hx => hpq x y hxy (List.mem_cons_of_mem a hx))
    rcases hpa : p a with _ | _
    · have hqb : q b = false := by
        rcases hqb2 : q b with _ | _
        · rfl
        · have := (hpq a b hab (List.mem_cons_self a t1)).mpr hqb2
          rw [hpa] at this
          exact absurd this (by simp)
      rw [List.filter_cons, List.filter_cons, hpa, hqb]
      simpa using ih2
    · have hqb : q b = true := (hpq a b hab (List.mem_cons_self a t1)).mp hpa
      rw [List.filter_cons, List.filter_cons, hpa, hqb]
      simpa using List.Forall₂.cons hab ih2

lemma forall2_map_eq {α β γ : Type} {R : α → β → Prop} {l1 : List α} {l2 : List β}
    (h : List.Forall₂ R l1 l2) (g1 : α → γ) (g2 : β → γ)
    (hg : ∀ a b, R a b → g2 b = g1 a) : l2.map g2 = l1.map g1 := by
  induction h with
  | nil => rfl
  | cons hab htl ih =>
    simp only [List.map_cons]
    rw [hg _ _ hab, ih]

lemma forall2_mem_right {α β : Type} {R : α → β → Prop} {l1 : List α} {l2 : List β}
    (h : List.Forall₂ R l1 l2) {b : β} (hb : b ∈ l2) : ∃ a ∈ l1, R a b := by
  induction h with
  | nil => simp at hb
  | cons hab htl ih =>
    rename_i a b2 t1 t2
    rcases List.mem_cons.mp hb with rfl | hb2
    · exact ⟨a, List.mem_cons_self a t1, hab⟩
    · obtain ⟨x, hx, hr⟩ := ih hb2
      exact ⟨x, List.mem_cons_of_mem a hx, hr⟩

lemma map_id_of_mem {α : Type} {f : α → α} {l : List α}
    (h : ∀ a ∈ l, f a = a) : l.map f = l := by
  induction l with
  | nil => rfl
  | cons a t ih =>
    simp only [List.map_cons]
    rw [h a (List.mem_cons_self a t), ih (fun x hx => h x (List.mem_cons_of_mem a hx))]

lemma filter_singleton_length {l : List Nat} {a : Nat} (hnd : l.Nodup) (ha : a ∈ l) :
    (l.filter (fun k => decide (k = a))).length = 1 := by
  induction l with
  | nil => simp at ha
  | cons x t ih =>
    have hnd2 := List.nodup_cons.mp hnd
    rcases List.mem_cons.mp ha with rfl | hat
    · rw [List.filter_cons, if_pos (by simp)]
      have ht0 : t.filter (fun k => decide (k = a)) = [] := by
        rw [List.filter_eq_nil]
        intro b hb
        simp only [decide_eq_true_eq]
        intro hba
        rw [hba] at hb
        exact hnd2.1 hb
      simp [ht0]
    · rw [List.filter_cons, if_neg (by
        simp only [decide_eq_true_eq]
        intro hxa
        rw [hxa] at hnd2
        exact hnd2.1 hat)]
      exact ih hnd2.2 hat

lemma occ_last_filter_length {P : List Nat} (hne : P ≠ [])
    (hpw : P.Pairwise (· < ·)) :
    (P.filter (fun k => decide (succIn P k = none))).length = 1 := by
  obtain ⟨L, hL⟩ : ∃ L, P.getLast? = some L := by
    rcases hg : P.getLast? with _ | L
    · exact absurd (List.getLast?_eq_none_iff.mp hg) hne
    · exact ⟨L, rfl⟩
  have hcongr : P.filter (fun k => decide (succIn P k = none))
      = P.filter (fun k => decide (k = L)) := by
    apply List.filter_congr
    intro k hk
    simp only [decide_eq_decide]
    constructor
    · intro hnone
      rcases succIn_cases hpw hk with ⟨hlast, -⟩ | ⟨j, hj⟩
      · rw [hL] at hlast
        exact (Option.some.inj hlast).symm
      · rw [hj] at hnone
        exact absurd hnone (by simp)
    · intro hkL
      rw [hkL]
      exact succIn_last hpw hL
  rw [hcongr]
  exact filter_singleton_length (hpw.nodup) (mem_of_getLast?_own hL)

lemma versionsRange_append (v0 : Int) (N m : Nat) :
    versionsRange v0 N ++ versionsRange (v0 + (N : Int)) m
      = versionsRange v0 (N + m) := by
  unfold versionsRange
  rw [List.range_add, List.map_append, List.map_map]
  congr 1
  apply List.map_congr_left
  intro k _
  show v0 + (N : Int) + (k : Int) = v0 + ((N + k : Nat) : Int)
  push_cast
  ring

lemma versionsRange_nodup (v0 : Int) (m : Nat) : (versionsRange v0 m).Nodup := by
  unfold versionsRange
  refine List.Nodup.map ?_ (List.nodup_range m)
  intro x y hxy
  have hv : v0 + (x : Int) = v0 + (y : Int) := hxy
  omega

lemma versionsRange_mem_le {v0 : Int} {m : Nat} {x : Int}
    (h : x ∈ versionsRange v0 m) : v0 ≤ x ∧ x < v0 + (m : Int) := by
  obtain ⟨k, hk, rfl⟩ := List.mem_map.mp h
  have := List.mem_range.mp hk
  omega

lemma updateElementsPrepared_parts {curSeq : Int} {curIds : ElementType → Int}
    {now : Int} {els : List (Element × ElementRef)} {inserted : List Element}
    {uti : List (ElementType × Int)}
    (h : updateElementsPrepared curSeq curIds now els = some (inserted, uti)) :
    omapList (resolveMembers (processElements curSeq curIds now els).assignedIdMap)
        (processElements curSeq curIds now els).done = some inserted ∧
    uti = (processElements curSeq curIds now els).updateTypeIds := by
  unfold updateElementsPrepared at h
  rcases hom : omapList
      (resolveMembers (processElements curSeq curIds now els).assignedIdMap)
      (processElements curSeq curIds now els).done with _ | es <;> rw [hom] at h
  · exact Option.noConfusion h
  · simp only [Option.map_some', Option.some.injEq, Prod.mk.injEq] at h
    exact ⟨by rw [h.1], h.2.symm⟩

lemma resolveMembers_fields {asg : List (ElementRef × Int)} {e e2 : Element}
    (h : resolveMembers asg e = some e2) :
    e2.type = e.type ∧ e2.id = e.id ∧ e2.version = e.version ∧
    e2.sequence_id = e.sequence_id ∧ e2.next_sequence_id = e.next_sequence_id := by
  obtain ⟨ms, -, rfl⟩ := resolveMembers_eq h
  exact ⟨rfl, rfl, rfl, rfl, rfl⟩

/-- The relation between a batch entry at its position and the inserted row
it produced. -/
def InsRel (asg : List (ElementRef × Int)) (refs : List ElementRef) (s0 : Int)
    (x : Nat × (Element × ElementRef)) (b : Element) : Prop :=
  b.type = x.2.1.type ∧ b.version = x.2.1.version ∧
  b.sequence_id = some (s0 + (x.1 : Int)) ∧
  b.next_sequence_id = (match nextAfter refs x.1 with
    | some j => some (s0 + (j : Int))
    | none => x.2.1.next_sequence_id) ∧
  (x.2.1.id < 0 → alookup asg x.2.2 = some b.id) ∧
  (0 ≤ x.2.1.id → b.id = x.2.1.id)

lemma inserted_rel {curSeq : Int} {curIds : ElementType → Int} {now : Int}
    {els : List (Element × ElementRef)} {inserted : List Element}
    {uti : List (ElementType × Int)}
    (htp : ∀ q ∈ els, (q : Element × ElementRef).1.type = q.2.type)
    (hue : updateElementsPrepared curSeq curIds now els = some (inserted, uti)) :
    List.Forall₂
      (InsRel (processElements curSeq curIds now els).assignedIdMap
        (els.map Prod.snd) (curSeq + 1))
      (indexed els 0) inserted := by
  obtain ⟨hom, -⟩ := updateElementsPrepared_parts hue
  have inv := processElements_inv curSeq curIds now els htp
  apply forall2_of_get
  · rw [indexed_length, omapList_length hom, inv.len]
  · intro k x b hx hb
    rw [indexed_get?] at hx
    rcases hq : els.get? k with _ | q <;> rw [hq] at hx
    · exact absurd hx (by simp)
    · have hxq : x = (k, q) := by simpa using hx.symm
      subst hxq
      obtain ⟨v, hdk, hvneg, hvpos⟩ := inv.shape k q hq
      obtain ⟨b2, hb2, hres⟩ := omapList_get? hom k hdk
      rw [hb] at hb2
      have hbb : b = b2 := Option.some.inj hb2
      subst hbb
      obtain ⟨hty, hid2, hver, hseq, hnext⟩ := resolveMembers_fields hres
      exact ⟨hty, hver, hseq, hnext, fun hneg => by rw [hid2]; exact hvneg hneg,
        fun hpos => by rw [hid2]; exact hvpos hpos⟩

lemma mem_utiOf {x : ElementType × Int} :
    ∀ {seen : List ElementRef} {l : List (Element × ElementRef)},
      x ∈ utiOf seen l →
      ∃ l1 q l2, l = l1 ++ q :: l2
        ∧ x = ((q : Element × ElementRef).1.type, q.1.id)
        ∧ q.2 ∉ seen ∧ q.2 ∉ l1.map Prod.snd ∧ 1 < q.1.version := by
  intro seen l
  induction l generalizing seen with
  | nil => intro h; simp [utiOf] at h
  | cons p t ih =>
    intro h
    rcases List.mem_append.mp h with hh | ht
    · by_cases hc : p.2 ∈ seen ∨ p.1.version ≤ 1
      · rw [if_pos hc] at hh
        simp at hh
      · rw [if_neg hc] at hh
        push_neg at hc
        have hx : x = (p.1.type, p.1.id) := by simpa using hh
        exact ⟨[], p, t, rfl, hx, hc.1, by simp, by omega⟩
    · obtain ⟨l1, q, l2, hl, hx, hseen, hl1, hver⟩ := ih ht
      have hq2 : q.2 ∉ seen ∧ q.2 ≠ p.2 := by
        simp only [List.mem_cons, not_or] at hseen
        exact ⟨hseen.2, hseen.1⟩
      refine ⟨p :: l1, q, l2, by simp [hl], hx, hq2.1, ?_, hver⟩
      simp only [List.map_cons, List.mem_cons, not_or]
      exact ⟨hq2.2, hl1⟩

lemma utiOf_mem_of_first :
    ∀ {seen : List ElementRef} (l1 : List (Element × ElementRef))
      (q : Element × ElementRef) (l2 : List (Element × ElementRef)),
      q.2 ∉ seen → q.2 ∉ l1.map Prod.snd → 1 < q.1.version →
      (q.1.type, q.1.id) ∈ utiOf seen (l1 ++ q :: l2) := by
  intro seen l1
  induction l1 generalizing seen with
  | nil =>
    intro q l2 hseen _ hver
    show (q.1.type, q.1.id) ∈
      (if q.2 ∈ seen ∨ q.1.version ≤ 1 then [] else [(q.1.type, q.1.id)])
        ++ utiOf (q.2 :: seen) l2
    rw [if_neg (by
      intro hc
      rcases hc with hc | hc
      · exact hseen hc
      · omega)]
    simp
  | cons p t ih =>
    intro q l2 hseen hl1 hver
    show (q.1.type, q.1.id) ∈
      (if p.2 ∈ seen ∨ p.1.version ≤ 1 then [] else [(p.1.type, p.1.id)])
        ++ utiOf (p.2 :: seen) (t ++ q :: l2)
    apply List.mem_append_right
    apply ih
    · simp only [List.mem_cons, not_or]
      simp only [List.map_cons, List.mem_cons, not_or] at hl1
      exact ⟨fun he => hl1.1 he, hseen⟩
    · simp only [List.map_cons, List.mem_cons, not_or] at hl1
      exact hl1.2
    · exact hver

lemma first_occurrence_split {r : ElementRef} :
    ∀ {l : List (Element × ElementRef)}, r ∈ l.map Prod.snd →
    ∃ l1 q l2, l = l1 ++ q :: l2 ∧ (q : Element × ElementRef).2 = r
      ∧ r ∉ l1.map Prod.snd := by
  intro l
  induction l with
  | nil => intro h; simp at h
  | cons p t ih =>
    intro h
    by_cases hp : p.2 = r
    · exact ⟨[], p, t, rfl, hp, by simp⟩
    · have hr : r ∈ t.map Prod.snd := by
        simp only [List.map_cons, List.mem_cons] at h
        rcases h with h | h
        · exact absurd h.symm hp
        · exact h
      obtain ⟨l1, q, l2, hl, hq, hl1⟩ := ih hr
      refine ⟨p :: l1, q, l2, by simp [hl], hq, ?_⟩
      simp only [List.map_cons, List.mem_cons, not_or]
      exact ⟨fun he => hp he.symm, hl1⟩

lemma filter_first_split {r : ElementRef} {l1 : List (Element × ElementRef)}
    {q : Element × ElementRef} (l2 : List (Element × ElementRef))
    (hq : q.2 = r) (h1 : r ∉ l1.map Prod.snd) :
    (l1 ++ q :: l2).filter (fun x => decide (x.2 = r))
      = q :: l2.filter (fun x => decide (x.2 = r)) := by
  rw [List.filter_append]
  have hnil : l1.filter (fun x => decide (x.2 = r)) = [] := by
    rw [List.filter_eq_nil_iff]
    intro x hx
    simp only [decide_eq_true_eq]
    intro he
    exact h1 (List.mem_map.mpr ⟨x, hx, he⟩)
  rw [hnil, List.filter_cons, if_pos (by simp [hq])]
  rfl

/-- Modelled from the spec: the guarantees the Diff Preparer gives about a
staged batch (the preparer module is not among the provided sources).  Every
element is paired with its own ref and is a fresh draft; per ref, the staged
versions are consecutive in batch order, starting at 1 for a placeholder and
at the stored current version plus one for a real ref; and every real ref
already exists in the store. -/
def batchStartVersion (store : List Element) (r : ElementRef) : Int :=
  if r.id < 0 then 1 else ((rowsOf store r.type r.id).length : Int) + 1

/-- The staged versions of one ref in batch order. -/
def batchRefVersions (els : List (Element × ElementRef)) (r : ElementRef) : List Int :=
  (els.filter (fun q => decide (q.2 = r))).map (fun q => q.1.version)

/-- Modelled from the spec: see `batchStartVersion`. -/
structure PreparedBatch (store : List Element)
    (els : List (Element × ElementRef)) : Prop where
  nonempty : els ≠ []
  fields : ∀ q ∈ els, (q : Element × ElementRef).1.type = q.2.type ∧ q.1.id = q.2.id ∧
    q.1.sequence_id = none ∧ q.1.next_sequence_id = none
  versions : ∀ r : ElementRef, r ∈ els.map Prod.snd →
    batchRefVersions els r
      = versionsRange (batchStartVersion store r) (batchRefVersions els r).length
  realRefs : ∀ r : ElementRef, r ∈ els.map Prod.snd →
    r.id < 0 ∨ (0 < r.id ∧ rowsOf store r.type r.id ≠ [])

/-- Commuting a filter past a map. -/
lemma filter_map_comm {α β : Type} (f : α → β) (p : β → Bool) (l : List α) :
    (l.map f).filter p = (l.filter (fun a => p (f a))).map f := by
  induction l with
  | nil => rfl
  | cons a tl ih =>
    rw [List.map_cons, List.filter_cons, List.filter_cons]
    rcases hp : p (f a) with _ | _
    · simpa [hp] using ih
    · simp [hp, ih]

lemma forall2_get_left {α β : Type} {R : α → β → Prop} {l1 : List α} {l2 : List β}
    (h : List.Forall₂ R l1 l2) :
    ∀ {k : Nat} {a : α}, l1.get? k = some a → ∃ b, l2.get? k = some b ∧ R a b := by
  induction h with
  | nil => intro k a ha; simp at ha
  | cons hab htl ih =>
    rename_i x y t1 t2
    intro k a ha
    cases k with
    | zero =>
      have hax : x = a := Option.some.inj ha
      subst hax
      exact ⟨y, rfl, hab⟩
    | succ m =>
      exact ih (by simpa using ha)

lemma mem_rowsOf {table : List Element} {t : ElementType} {i : Int} {e : Element} :
    e ∈ rowsOf table t i ↔ e ∈ table ∧ e.type = t ∧ e.id = i := by
  unfold rowsOf
  rw [List.mem_filter]
  simp

lemma rowsOf_append (t1 t2 : List Element) (t : ElementType) (i : Int) :
    rowsOf (t1 ++ t2) t i = rowsOf t1 t i ++ rowsOf t2 t i := by
  unfold rowsOf
  exact List.filter_append _ _

/-- The batched `UPDATE` acts on each (type, id) group of the flushed table
by mapping the per-row effect over it. -/
lemma rowsOf_dbLinkUpdate (curSeq : Int) (uti : List (ElementType × Int))
    (table : List Element) (t : ElementType) (i : Int) :
    rowsOf (dbLinkUpdate curSeq uti table) t i
      = (rowsOf table t i).map (linkFn curSeq uti table) := by
  unfold rowsOf dbLinkUpdate
  rw [filter_map_comm]
  congr 1
  apply List.filter_congr
  intro e _
  unfold linkFn
  by_cases hc : matchesUpdateCond curSeq uti e = true
  · rw [if_pos hc]
  · rw [if_neg hc]

lemma versionsRange_get?_zero (v0 : Int) (n : Nat) :
    (versionsRange v0 (n + 1)).get? 0 = some v0 := by
  unfold versionsRange
  rw [get?_map_own]
  rw [List.get?_range (by omega : 0 < n + 1)]
  simp

lemma elementRef_eq {a b : ElementRef} (ht : a.type = b.type) (hi : a.id = b.id) :
    a = b := by
  cases a
  cases b
  simp_all

/-- The first batch occurrence of a ref carries the starting version the
preparer staged for that ref. -/
lemma first_version_eq {store : List Element} {els : List (Element × ElementRef)}
    {l1 : List (Element × ElementRef)} {q : Element × ElementRef}
    {l2 : List (Element × ElementRef)}
    (hprep : PreparedBatch store els) (hsplit : els = l1 ++ q :: l2)
    (hq : q.2 ∉ l1.map Prod.snd) :
    q.1.version = batchStartVersion store q.2 := by
  have hqmem : q ∈ els := by
    rw [hsplit]
    exact List.mem_append_right _ (List.mem_cons_self q l2)
  have hrmem : q.2 ∈ els.map Prod.snd := List.mem_map.mpr ⟨q, hqmem, rfl⟩
  have hv := hprep.versions q.2 hrmem
  have hfs : els.filter (fun x => decide (x.2 = q.2))
      = q :: l2.filter (fun x => decide (x.2 = q.2)) := by
    rw [hsplit]
    exact filter_first_split l2 rfl hq
  have hbv : batchRefVersions els q.2
      = q.1.version :: (l2.filter (fun x => decide (x.2 = q.2))).map
          (fun x => x.1.version) := by
    unfold batchRefVersions
    rw [hfs]
    rfl
  rw [hbv, List.length_cons] at hv
  have h0 : (q.1.version :: (l2.filter (fun x => decide (x.2 = q.2))).map
        (fun x => x.1.version)).get? 0
      = (versionsRange (batchStartVersion store q.2)
          (((l2.filter (fun x => decide (x.2 = q.2))).map
            (fun x => x.1.version)).length + 1)).get? 0 := by
    rw [hv]
  rw [versionsRange_get?_zero] at h0
  exact Option.some.inj h0

/-- The versions of one ref's inserted rows are exactly its staged batch
versions, in order. -/
lemma insrel_versions {asg : List (ElementRef × Int)} {s0 : Int}
    {els : List (Element × ElementRef)} {G2 : List Element} {r : ElementRef}
    (hF2 : List.Forall₂ (InsRel asg (els.map Prod.snd) s0)
      ((indexed els 0).filter (fun x => decide (x.2.2 = r))) G2) :
    G2.map (fun e => e.version) = batchRefVersions els r := by
  have h1 := forall2_map_eq hF2 (fun x => x.2.1.version) (fun e => e.version)
    (fun a b hab => hab.2.1)
  rw [h1]
  have h2 : ((indexed els 0).filter (fun x => decide (x.2.2 = r))).map
        (fun x => x.2.1.version)
      = (((indexed els 0).filter (fun x => decide (x.2.2 = r))).map Prod.snd).map
        (fun q => q.1.version) := by
    rw [List.map_map]
    rfl
  rw [h2]
  have h3 : ((indexed els 0).filter (fun x => decide (x.2.2 = r))).map Prod.snd
      = els.filter (fun q => decide (q.2 = r)) :=
    indexed_filter_snd els 0 (fun q => decide (q.2 = r))
  rw [h3]
  rfl

/-- Freshly inserted rows carry post-batch sequence ids, so the batched
`UPDATE` leaves them untouched. -/
lemma insrel_linkFn_id (curSeq : Int) (uti : List (ElementType × Int))
    (table : List Element) {asg : List (ElementRef × Int)} {refs : List ElementRef}
    {occList : List (Nat × (Element × ElementRef))} {G2 : List Element}
    (hF2 : List.Forall₂ (InsRel asg refs (curSeq + 1)) occList G2) :
    ∀ b ∈ G2, linkFn curSeq uti table b = b := by
  intro b hb
  obtain ⟨x, -, hR⟩ := forall2_mem_right hF2 hb
  have hseq := hR.2.2.1
  have hcond : matchesUpdateCond curSeq uti b = false := by
    unfold matchesUpdateCond
    rw [hseq]
    show (decide (curSeq + 1 + (x.1 : Int) ≤ curSeq)
      && decide (b.next_sequence_id = none)
      && uti.any (fun p => decide (p.1 = b.type) && decide (p.2 = b.id))) = false
    rw [decide_eq_false (by omega : ¬ curSeq + 1 + (x.1 : Int) ≤ curSeq),
      Bool.false_and, Bool.false_and]
  simp [linkFn, hcond]

/-- Among one ref's inserted rows, exactly one still has a null
`next_sequence_id`: the last batch occurrence of that ref. -/
lemma insrel_null_count {asg : List (ElementRef × Int)} {s0 : Int}
    {els : List (Element × ElementRef)} {G2 : List Element} {r : ElementRef}
    (hnext0 : ∀ q ∈ els, (q : Element × ElementRef).1.next_sequence_id = none)
    (hF2 : List.Forall₂ (InsRel asg (els.map Prod.snd) s0)
      ((indexed els 0).filter (fun x => decide (x.2.2 = r))) G2)
    (hne : G2 ≠ []) :
    (G2.filter (fun e => decide (e.next_sequence_id = none))).length = 1 := by
  have hP0 : ((indexed els 0).filter (fun x => decide (x.2.2 = r))).map Prod.fst
      = occPositionsFrom r (els.map Prod.snd) 0 := indexed_filter_fst els 0 r
  have hpw := occPositionsFrom_pairwise r (els.map Prod.snd) 0
  have hlen := hF2.length_eq
  have hoccne : ((indexed els 0).filter (fun x => decide (x.2.2 = r))) ≠ [] := by
    intro h0
    rw [h0] at hlen
    exact hne (List.length_eq_zero.mp hlen.symm)
  have hP0ne : occPositionsFrom r (els.map Prod.snd) 0 ≠ [] := by
    rw [← hP0]
    simpa using hoccne
  have hstep := forall2_filter hF2
    (p := fun x => decide (succIn (occPositionsFrom r (els.map Prod.snd) 0) x.1 = none))
    (q := fun b => decide (b.next_sequence_id = none)) ?_
  · have hlen2 := hstep.length_eq
    have hc := filter_map_comm Prod.fst
      (fun k => decide (succIn (occPositionsFrom r (els.map Prod.snd) 0) k = none))
      ((indexed els 0).filter (fun x => decide (x.2.2 = r)))
    rw [hP0] at hc
    have hc2 := congrArg List.length hc
    rw [List.length_map] at hc2
    have hfin := occ_last_filter_length hP0ne hpw
    rw [hc2] at hfin
    rw [← hlen2]
    exact hfin
  · intro x b hR hx
    have hxm := List.mem_filter.mp hx
    obtain ⟨-, hget⟩ := indexed_mem hxm.1
    have hxr : x.2.2 = r := by simpa using hxm.2
    have hget2 : els.get? x.1 = some x.2 := by simpa using hget
    have hq2 : x.2 ∈ els := get?_mem_own hget2
    have hrefs : (els.map Prod.snd).get? x.1 = some r := by
      rw [get?_map_own, hget2]
      simp [hxr]
    have hnA : nextAfter (els.map Prod.snd) x.1
        = succIn (occPositionsFrom r (els.map Prod.snd) 0) x.1 := by
      unfold nextAfter
      rw [hrefs]
    have hbnext := hR.2.2.2.1
    rw [hnA] at hbnext
    simp only [decide_eq_true_eq]
    rcases hs : succIn (occPositionsFrom r (els.map Prod.snd) 0) x.1 with _ | j <;>
      rw [hs] at hbnext
    · have hbn2 : b.next_sequence_id = x.2.1.next_sequence_id := hbnext
      rw [hbn2, hnext0 x.2 hq2]
      simp
    · have hbn2 : b.next_sequence_id = some (s0 + (j : Int)) := hbnext
      rw [hbn2]
      simp

/-- The per-ref store invariant (spec section on invariants): each (type, id)
group of stored revisions, when present, has versions forming a contiguous
range starting at 1, and exactly one of its rows has a null
`next_sequence_id`. -/
def storeInvariant (store : List Element) : Prop :=
  ∀ (t : ElementType) (i : Int), rowsOf store t i = [] ∨
    (((rowsOf store t i).map (fun e => e.version)).Perm
        (versionsRange 1 (rowsOf store t i).length) ∧
      ((rowsOf store t i).filter
        (fun e => decide (e.next_sequence_id = none))).length = 1)

/-- **C7**: after every successful apply, for each (type, id) group of stored
revisions the versions form a contiguous range 1..N — updates extend the
stored chain one past its previous top, creates start at 1 — and exactly one
revision of the group has a null `next_sequence_id`.  The pre-state satisfies
the same invariant and has its sequence ids assigned; the batch obeys the
preparer guarantees (`PreparedBatch`). -/
theorem apply_store_invariant_preserved :
    ∀ (maxSize now : Int) (p : OptimisticDiffPrepare) (db db1 : DbState)
      (res : List (ElementRef × Element)),
      (∀ e ∈ db.store, ∃ s : Int, e.sequence_id = some s) →
      storeInvariant db.store →
      PreparedBatch db.store p.apply_elements →
      applyModel maxSize now p db = Except.ok (db1, res) →
      storeInvariant db1.store := by
  intro maxSize now p db db1 res hwf1 hinv0 hprep hok
  obtain ⟨-, -, newCs, inserted, uti, -, hue, hdb1, -⟩ :=
    applyModel_ok hprep.nonempty hok
  subst hdb1
  have htp : ∀ q ∈ p.apply_elements,
      (q : Element × ElementRef).1.type = q.2.type :=
    fun q hq => (hprep.fields q hq).1
  have hinv := processElements_inv (currentSequenceIdOf db.store)
    (currentTypedIds db.store) now p.apply_elements htp
  have hrel := inserted_rel htp hue
  obtain ⟨-, hutiP⟩ := updateElementsPrepared_parts hue
  have hutiOf : uti = utiOf [] p.apply_elements := by
    rw [hutiP, hinv.uti]
  show storeInvariant (dbLinkUpdate (currentSequenceIdOf db.store) uti
    (db.store ++ inserted))
  intro t i
  have hgrp : rowsOf (dbLinkUpdate (currentSequenceIdOf db.store) uti
        (db.store ++ inserted)) t i
      = (rowsOf db.store t i).map (linkFn (currentSequenceIdOf db.store) uti
          (db.store ++ inserted))
        ++ (rowsOf inserted t i).map (linkFn (currentSequenceIdOf db.store) uti
          (db.store ++ inserted)) := by
    rw [rowsOf_dbLinkUpdate, rowsOf_append, List.map_append]
  rw [hgrp]
  by_cases hins : rowsOf inserted t i = []
  · -- group untouched by this batch
    rw [hins]
    simp only [List.map_nil, List.append_nil]
    rcases hinv0 t i with hS0 | ⟨hperm, hcnt⟩
    · rw [hS0]
      exact Or.inl rfl
    · have hnotin : (t, i) ∉ uti := by
        rw [hutiOf]
        intro hmem
        obtain ⟨l1, q, l2, hsplit, hx, -, hfirst, hver⟩ := mem_utiOf hmem
        have hqmem : q ∈ p.apply_elements := by
          rw [hsplit]
          exact List.mem_append_right _ (List.mem_cons_self q l2)
        have hfld := hprep.fields q hqmem
        have hti : t = q.1.type ∧ i = q.1.id :=
          ⟨congrArg Prod.fst hx, congrArg Prod.snd hx⟩
        have hidnn : 0 ≤ q.1.id := by
          by_contra hneg
          push_neg at hneg
          have hq2neg : q.2.id < 0 := by
            rw [← hfld.2.1]
            exact hneg
          have hv1 := first_version_eq hprep hsplit hfirst
          unfold batchStartVersion at hv1
          rw [if_pos hq2neg] at hv1
          omega
        have hget : p.apply_elements.get? l1.length = some q := by
          rw [hsplit]
          have h0 := get?_append_r l1 (q :: l2) 0
          simpa using h0
        have hidx : (indexed p.apply_elements 0).get? l1.length
            = some (l1.length, q) := by
          rw [indexed_get?, hget]
          simp
        obtain ⟨b, hbget, hR⟩ := forall2_get_left hrel hidx
        have hbid : b.id = q.1.id := hR.2.2.2.2.2 hidnn
        have hbin : b ∈ rowsOf inserted t i := by
          rw [mem_rowsOf]
          refine ⟨get?_mem_own hbget, ?_, ?_⟩
          · have h1 : b.type = q.1.type := hR.1
            rw [h1, ← hti.1]
          · rw [hbid, ← hti.2]
        rw [hins] at hbin
        simp at hbin
      have hid : ∀ e ∈ rowsOf db.store t i,
          linkFn (currentSequenceIdOf db.store) uti (db.store ++ inserted) e = e := by
        intro e he
        obtain ⟨-, het, hei⟩ := mem_rowsOf.mp he
        have hany : uti.any (fun pr => decide (pr.1 = e.type)
            && decide (pr.2 = e.id)) = false := by
          rcases ha : uti.any (fun pr => decide (pr.1 = e.type)
              && decide (pr.2 = e.id)) with _ | _
          · rfl
          · exfalso
            obtain ⟨pr, hpr, hprt⟩ := List.any_eq_true.mp ha
            simp only [Bool.and_eq_true, decide_eq_true_eq] at hprt
            apply hnotin
            have hpr2 : pr = (t, i) := by
              have h1 : pr.1 = t := by rw [hprt.1, het]
              have h2 : pr.2 = i := by rw [hprt.2, hei]
              rw [← h1, ← h2]
            rw [← hpr2]
            exact hpr
        have hcond : matchesUpdateCond (currentSequenceIdOf db.store) uti e
            = false := by
          unfold matchesUpdateCond
          rw [hany, Bool.and_false]
        simp [linkFn, hcond]
      rw [map_id_of_mem hid]
      exact Or.inr ⟨hperm, hcnt⟩
  · -- group touched: some inserted row belongs to it
    obtain ⟨b0, hb0⟩ := List.exists_mem_of_ne_nil _ hins
    obtain ⟨hb0in, hb0t, hb0i⟩ := mem_rowsOf.mp hb0
    obtain ⟨x0, hx0, hR0⟩ := forall2_mem_right hrel hb0in
    obtain ⟨-, hx0get⟩ := indexed_mem hx0
    have hx0get2 : p.apply_elements.get? x0.1 = some x0.2 := by simpa using hx0get
    have hq0mem : x0.2 ∈ p.apply_elements := get?_mem_own hx0get2
    have hfld0 := hprep.fields x0.2 hq0mem
    have hb0ty : b0.type = x0.2.1.type := hR0.1
    have hrt : x0.2.2.type = t := by
      rw [← hfld0.1, ← hb0ty, hb0t]
    have hrmem : x0.2.2 ∈ p.apply_elements.map Prod.snd :=
      List.mem_map.mpr ⟨x0.2, hq0mem, rfl⟩
    by_cases hpl : x0.2.2.id < 0
    · -- placeholder ref: the group is entirely new
      have hq0neg : x0.2.1.id < 0 := by
        rw [hfld0.2.1]
        exact hpl
      have hlook := hR0.2.2.2.2.1 hq0neg
      have hSe : rowsOf db.store t i = [] := by
        rcases hS : rowsOf db.store t i with _ | ⟨e, rest⟩
        · rfl
        · exfalso
          have hein : e ∈ rowsOf db.store t i := by
            rw [hS]
            exact List.mem_cons_self e rest
          obtain ⟨hein2, het, hei⟩ := mem_rowsOf.mp hein
          have hbnd2 : currentTypedIds db.store x0.2.2.type < b0.id :=
            (hinv.asg_bounds (x0.2.2, b0.id) (alookup_mem hlook)).1
          rw [hrt, hb0i] at hbnd2
          have hle := currentTypedIds_ge hein2 het
          rw [hei] at hle
          omega
      have hF2 : List.Forall₂ (InsRel (processElements (currentSequenceIdOf db.store)
            (currentTypedIds db.store) now p.apply_elements).assignedIdMap
            (p.apply_elements.map Prod.snd) (currentSequenceIdOf db.store + 1))
          ((indexed p.apply_elements 0).filter (fun x => decide (x.2.2 = x0.2.2)))
          (rowsOf inserted t i) := by
        apply forall2_filter hrel
        intro x b hR hx
        simp only [decide_eq_true_eq, Bool.and_eq_true]
        obtain ⟨-, hget⟩ := indexed_mem hx
        have hget2 : p.apply_elements.get? x.1 = some x.2 := by simpa using hget
        have hq2 : x.2 ∈ p.apply_elements := get?_mem_own hget2
        have hfld := hprep.fields x.2 hq2
        constructor
        · intro hxr
          have hbt2 : b.type = t := by
            have h1 : b.type = x.2.1.type := hR.1
            rw [h1, hfld.1, hxr, hrt]
          refine ⟨hbt2, ?_⟩
          have hxneg : x.2.1.id < 0 := by
            rw [hfld.2.1, hxr]
            exact hpl
          have hlk := hR.2.2.2.2.1 hxneg
          rw [hxr, hlook] at hlk
          have hb0b := Option.some.inj hlk
          rw [← hb0b]
          exact hb0i
        · rintro ⟨hbt, hbi⟩
          by_cases hr2 : x.2.2.id < 0
          · have hxneg : x.2.1.id < 0 := by
              rw [hfld.2.1]
              exact hr2
            have hlk := hR.2.2.2.2.1 hxneg
            rw [hbi] at hlk
            have hlook2 : alookup (processElements (currentSequenceIdOf db.store)
                (currentTypedIds db.store) now p.apply_elements).assignedIdMap
                x0.2.2 = some i := by
              rw [hlook, hb0i]
            by_contra hne
            have hmem1 := alookup_mem hlk
            have hmem2 := alookup_mem hlook2
            have htyeq : (x.2.2, i).1.type = (x0.2.2, i).1.type := by
              show x.2.2.type = x0.2.2.type
              rw [← hfld.1, ← hR.1, hbt, hrt]
            exact hinv.asg_inj (x.2.2, i) hmem1 (x0.2.2, i) hmem2 htyeq hne rfl
          · push_neg at hr2
            have hxpos : 0 ≤ x.2.1.id := by
              rw [hfld.2.1]
              exact hr2
            have hbid := hR.2.2.2.2.2 hxpos
            have hx2i : x.2.2.id = i := by
              rw [← hfld.2.1, ← hbid, hbi]
            exfalso
            have hxrm : x.2.2 ∈ p.apply_elements.map Prod.snd :=
              List.mem_map.mpr ⟨x.2, hq2, rfl⟩
            rcases hprep.realRefs x.2.2 hxrm with hc | ⟨-, hcne⟩
            · omega
            · have hx2t : x.2.2.type = t := by
                rw [← hfld.1, ← hR.1, hbt]
              rw [hx2t, hx2i, hSe] at hcne
              exact hcne rfl
      have hvers := insrel_versions hF2
      have hbsv : batchStartVersion db.store x0.2.2 = 1 := by
        unfold batchStartVersion
        rw [if_pos hpl]
      have hvr := hprep.versions x0.2.2 hrmem
      rw [hbsv] at hvr
      have hlen3 : (batchRefVersions p.apply_elements x0.2.2).length
          = (rowsOf inserted t i).length := by
        rw [← hvers, List.length_map]
      have hcount := insrel_null_count
        (fun q hq => (hprep.fields q hq).2.2.2) hF2 hins
      have hid2 := insrel_linkFn_id (currentSequenceIdOf db.store) uti
        (db.store ++ inserted) hF2
      rw [hSe]
      simp only [List.map_nil, List.nil_append]
      rw [map_id_of_mem hid2]
      refine Or.inr ⟨?_, hcount⟩
      rw [hvers, hvr, hlen3]
    · -- real ref: the group extends the stored chain
      push_neg at hpl
      rcases hprep.realRefs x0.2.2 hrmem with hneg | ⟨hpos, hSne0⟩
      · omega
      have hq0pos : 0 ≤ x0.2.1.id := by
        rw [hfld0.2.1]
        exact hpl
      have hb0id := hR0.2.2.2.2.2 hq0pos
      have hieq : x0.2.2.id = i := by
        rw [← hfld0.2.1, ← hb0id, hb0i]
      have hSrw : rowsOf db.store x0.2.2.type x0.2.2.id = rowsOf db.store t i := by
        rw [hrt, hieq]
      rw [hSrw] at hSne0
      rcases hinv0 t i with h0 | ⟨hperm, hcnt⟩
      · exact absurd h0 hSne0
      obtain ⟨l1, q1, l2, hsplit, hq1r, hfirst⟩ := first_occurrence_split hrmem
      have hq1mem : q1 ∈ p.apply_elements := by
        rw [hsplit]
        exact List.mem_append_right _ (List.mem_cons_self q1 l2)
      have hfld1 := hprep.fields q1 hq1mem
      have hv1 := first_version_eq hprep hsplit (by rw [hq1r]; exact hfirst)
      rw [hq1r] at hv1
      unfold batchStartVersion at hv1
      rw [if_neg (by omega : ¬ x0.2.2.id < 0), hSrw] at hv1
      have hlenpos : 0 < (rowsOf db.store t i).length := List.length_pos.mpr hSne0
      have hgt1 : 1 < q1.1.version := by
        rw [hv1]
        omega
      have hin_uti : (t, i) ∈ uti := by
        rw [hutiOf]
        have hm := @utiOf_mem_of_first [] l1 q1 l2 (by simp)
          (by rw [hq1r]; exact hfirst) hgt1
        rw [← hsplit] at hm
        have hq1t : q1.1.type = t := by rw [hfld1.1, hq1r, hrt]
        have hq1i : q1.1.id = i := by rw [hfld1.2.1, hq1r, hieq]
        rw [← hq1t, ← hq1i]
        exact hm
      have hF2 : List.Forall₂ (InsRel (processElements (currentSequenceIdOf db.store)
            (currentTypedIds db.store) now p.apply_elements).assignedIdMap
            (p.apply_elements.map Prod.snd) (currentSequenceIdOf db.store + 1))
          ((indexed p.apply_elements 0).filter (fun x => decide (x.2.2 = x0.2.2)))
          (rowsOf inserted t i) := by
        apply forall2_filter hrel
        intro x b hR hx
        simp only [decide_eq_true_eq, Bool.and_eq_true]
        obtain ⟨-, hget⟩ := indexed_mem hx
        have hget2 : p.apply_elements.get? x.1 = some x.2 := by simpa using hget
        have hq2 : x.2 ∈ p.apply_elements := get?_mem_own hget2
        have hfld := hprep.fields x.2 hq2
        constructor
        · intro hxr
          have hbt2 : b.type = t := by
            have h1 : b.type = x.2.1.type := hR.1
            rw [h1, hfld.1, hxr, hrt]
          refine ⟨hbt2, ?_⟩
          have hxpos : 0 ≤ x.2.1.id := by
            rw [hfld.2.1, hxr]
            exact hpl
          have hbid := hR.2.2.2.2.2 hxpos
          rw [hbid, hfld.2.1, hxr, hieq]
        · rintro ⟨hbt, hbi⟩
          by_cases hr2 : x.2.2.id < 0
          · exfalso
            have hxneg : x.2.1.id < 0 := by
              rw [hfld.2.1]
              exact hr2
            have hlk := hR.2.2.2.2.1 hxneg
            rw [hbi] at hlk
            have hbnd2 : currentTypedIds db.store x.2.2.type < i :=
              (hinv.asg_bounds (x.2.2, i) (alookup_mem hlk)).1
            have hx2t : x.2.2.type = t := by
              rw [← hfld.1, ← hR.1, hbt]
            rw [hx2t] at hbnd2
            obtain ⟨e, he⟩ := List.exists_mem_of_ne_nil _ hSne0
            obtain ⟨hein, het, hei⟩ := mem_rowsOf.mp he
            have hle := currentTypedIds_ge hein het
            rw [hei] at hle
            omega
          · push_neg at hr2
            have hxpos : 0 ≤ x.2.1.id := by
              rw [hfld.2.1]
              exact hr2
            have hbid := hR.2.2.2.2.2 hxpos
            have hx2i : x.2.2.id = i := by
              rw [← hfld.2.1, ← hbid, hbi]
            have hx2t : x.2.2.type = t := by
              rw [← hfld.1, ← hR.1, hbt]
            exact elementRef_eq (by rw [hx2t, hrt]) (by rw [hx2i, hieq])
      have hvers := insrel_versions hF2
      have hbsv : batchStartVersion db.store x0.2.2
          = ((rowsOf db.store t i).length : Int) + 1 := by
        unfold batchStartVersion
        rw [if_neg (by omega : ¬ x0.2.2.id < 0), hSrw]
      have hvr := hprep.versions x0.2.2 hrmem
      rw [hbsv] at hvr
      have hlen3 : (batchRefVersions p.apply_elements x0.2.2).length
          = (rowsOf inserted t i).length := by
        rw [← hvers, List.length_map]
      have hcount := insrel_null_count
        (fun q hq => (hprep.fields q hq).2.2.2) hF2 hins
      have hid2 := insrel_linkFn_id (currentSequenceIdOf db.store) uti
        (db.store ++ inserted) hF2
      have hSbeh : ∀ e ∈ rowsOf db.store t i,
          (linkFn (currentSequenceIdOf db.store) uti (db.store ++ inserted)
              e).version = e.version
            ∧ (linkFn (currentSequenceIdOf db.store) uti (db.store ++ inserted)
              e).next_sequence_id ≠ none := by
        intro e he
        obtain ⟨hein, het, hei⟩ := mem_rowsOf.mp he
        rcases hen : e.next_sequence_id with _ | s2
        · obtain ⟨sv, hsv⟩ := hwf1 e hein
          have hsle : sv ≤ currentSequenceIdOf db.store := by
            have hm : sv ∈ db.store.filterMap (fun e2 => e2.sequence_id) :=
              List.mem_filterMap.mpr ⟨e, hein, hsv⟩
            exact mem_le_maxOr0 hm
          have hany : uti.any (fun pr => decide (pr.1 = e.type)
              && decide (pr.2 = e.id)) = true :=
            List.any_eq_true.mpr ⟨(t, i), hin_uti, by
              simp only [Bool.and_eq_true, decide_eq_true_eq]
              exact ⟨het.symm, hei.symm⟩⟩
          have hcond : matchesUpdateCond (currentSequenceIdOf db.store) uti e
              = true := by
            unfold matchesUpdateCond
            rw [hsv, hen, hany]
            simp [hsle]
          have hb0v : ((rowsOf db.store t i).length : Int) + 1 ≤ b0.version := by
            have hm : b0.version ∈ (rowsOf inserted t i).map (fun e2 => e2.version) :=
              List.mem_map.mpr ⟨b0, hb0, rfl⟩
            rw [hvers, hvr] at hm
            exact (versionsRange_mem_le hm).1
          have hev_le : e.version < 1 + ((rowsOf db.store t i).length : Int) := by
            have hm : e.version ∈ (rowsOf db.store t i).map (fun e2 => e2.version) :=
              List.mem_map.mpr ⟨e, he, rfl⟩
            have hm2 := hperm.mem_iff.mp hm
            exact (versionsRange_mem_le hm2).2
          have hlow : ∃ s3, lowestHigherVersionSeq (db.store ++ inserted)
              e.type e.id e.version = some s3 := by
            unfold lowestHigherVersionSeq
            rcases hmin : minByVersion ((db.store ++ inserted).filter
                (fun e2 => decide (e2.type = e.type) && decide (e2.id = e.id)
                  && decide (e.version < e2.version))) with _ | m0
            · exfalso
              have hfe := minByVersion_none_iff.mp hmin
              have hbm : b0 ∈ (db.store ++ inserted).filter
                  (fun e2 => decide (e2.type = e.type) && decide (e2.id = e.id)
                    && decide (e.version < e2.version)) := by
                rw [List.mem_filter]
                refine ⟨List.mem_append_right _ hb0in, ?_⟩
                simp only [Bool.and_eq_true, decide_eq_true_eq]
                exact ⟨⟨by rw [hb0t, het], by rw [hb0i, hei]⟩, by omega⟩
              rw [hfe] at hbm
              simp at hbm
            · obtain ⟨hm0mem, -⟩ := minByVersion_spec hmin
              have hm0in : m0 ∈ db.store ++ inserted := (List.mem_filter.mp hm0mem).1
              rcases List.mem_append.mp hm0in with hsm | him
              · obtain ⟨s3, hs3⟩ := hwf1 m0 hsm
                refine ⟨s3, ?_⟩
                show m0.sequence_id = some s3
                exact hs3
              · obtain ⟨x1, -, hR1⟩ := forall2_mem_right hrel him
                refine ⟨currentSequenceIdOf db.store + 1 + (x1.1 : Int), ?_⟩
                show m0.sequence_id
                  = some (currentSequenceIdOf db.store + 1 + (x1.1 : Int))
                exact hR1.2.2.1
          obtain ⟨s3, hs3⟩ := hlow
          constructor
          · unfold linkFn
            rw [if_pos hcond]
          · unfold linkFn
            rw [if_pos hcond]
            show lowestHigherVersionSeq (db.store ++ inserted) e.type e.id e.version
              ≠ none
            rw [hs3]
            simp
        · have hcond : matchesUpdateCond (currentSequenceIdOf db.store) uti e
              = false := by
            unfold matchesUpdateCond
            rw [hen]
            simp
          constructor
          · simp [linkFn, hcond]
          · simp [linkFn, hcond, hen]
      rw [map_id_of_mem hid2]
      refine Or.inr ⟨?_, ?_⟩
      · rw [List.map_append]
        have hSv : (((rowsOf db.store t i).map (linkFn (currentSequenceIdOf db.store)
              uti (db.store ++ inserted))).map (fun e => e.version))
            = (rowsOf db.store t i).map (fun e => e.version) := by
          rw [List.map_map]
          apply List.map_congr_left
          intro e he
          exact (hSbeh e he).1
        rw [hSv, hvers, hvr, hlen3]
        have hglen : ((rowsOf db.store t i).map (linkFn (currentSequenceIdOf db.store)
              uti (db.store ++ inserted)) ++ rowsOf inserted t i).length
            = (rowsOf db.store t i).length + (rowsOf inserted t i).length := by
          rw [List.length_append, List.length_map]
        rw [hglen]
        have hcomm : ((rowsOf db.store t i).length : Int) + 1
            = 1 + ((rowsOf db.store t i).length : Int) := by
          ring
        rw [hcomm]
        rw [← versionsRange_append 1 (rowsOf db.store t i).length
          (rowsOf inserted t i).length]
        exact List.Perm.append hperm (List.Perm.refl _)
      · rw [List.filter_append, List.length_append]
        have hS0 : (((rowsOf db.store t i).map (linkFn (currentSequenceIdOf db.store)
              uti (db.store ++ inserted))).filter
            (fun e => decide (e.next_sequence_id = none))).length = 0 := by
          have hnil : ((rowsOf db.store t i).map (linkFn (currentSequenceIdOf db.store)
              uti (db.store ++ inserted))).filter
              (fun e => decide (e.next_sequence_id = none)) = [] := by
            rw [List.filter_eq_nil]
            intro b hbm
            obtain ⟨e, he, hbe⟩ := List.mem_map.mp hbm
            simp only [decide_eq_true_eq]
            rw [← hbe]
            exact (hSbeh e he).2
          rw [hnil]
          rfl
        rw [hS0, hcount]

lemma rowsOf_pair_ne {a b : Element} {t : ElementType} {i : Int}
    (ha : ¬ (a.type = t ∧ a.id = i)) (hb : ¬ (b.type = t ∧ b.id = i)) :
    rowsOf [a, b] t i = [] := by
  unfold rowsOf
  rw [List.filter_cons, List.filter_cons,
    if_neg (by simpa [Bool.and_eq_true, decide_eq_true_eq] using ha),
    if_neg (by simpa [Bool.and_eq_true, decide_eq_true_eq] using hb)]
  rfl

/-- Stored node 1, version 1, already linked to its successor. -/
def c7a : Element :=
  { type := .node, id := 1, version := 1, visible := true, members := [],
    sequence_id := some 1, next_sequence_id := some 2, created_at := some 5 }

/-- Stored node 1, version 2, the current revision. -/
def c7b : Element :=
  { type := .node, id := 1, version := 2, visible := true, members := [],
    sequence_id := some 2, next_sequence_id := none, created_at := some 6 }

def c7db : DbState :=
  { store := [c7a, c7b],
    changesetRow := { id := 7, updated_at := 10, closed_at := none, size := 1 } }

/-- Draft update of node 1 to version 3. -/
def c7u3 : Element :=
  { type := .node, id := 1, version := 3, visible := true, members := [],
    sequence_id := none, next_sequence_id := none, created_at := none }

/-- Draft update of node 1 to version 4. -/
def c7u4 : Element :=
  { type := .node, id := 1, version := 4, visible := true, members := [],
    sequence_id := none, next_sequence_id := none, created_at := none }

def c7p : OptimisticDiffPrepare :=
  { apply_elements := [(c7u3, ⟨.node, 1⟩), (c7u4, ⟨.node, 1⟩)],
    element_state := [], reference_check_element_refs := [], at_sequence_id := 2,
    changeset := { id := 7, updated_at := 10, closed_at := none, size := 1 } }

def c7n3 : Element :=
  { type := .node, id := 1, version := 3, visible := true, members := [],
    sequence_id := some 3, next_sequence_id := some 4, created_at := some 20 }

def c7n4 : Element :=
  { type := .node, id := 1, version := 4, visible := true, members := [],
    sequence_id := some 4, next_sequence_id := none, created_at := some 20 }

def c7db1 : DbState :=
  { store := [c7a,
      { type := .node, id := 1, version := 2, visible := true, members := [],
        sequence_id := some 2, next_sequence_id := some 3, created_at := some 6 },
      c7n3, c7n4],
    changesetRow := { id := 7, updated_at := 20, closed_at := none, size := 1 } }

def c7res : List (ElementRef × Element) :=
  [(⟨.node, 1⟩, c7n3), (⟨.node, 1⟩, c7n4)]

lemma c7wf1 : ∀ e ∈ c7db.store, ∃ s : Int, e.sequence_id = some s := by
  intro e he
  have he2 : e ∈ [c7a, c7b] := he
  rcases List.mem_cons.mp he2 with rfl | he3
  · exact ⟨1, rfl⟩
  rcases List.mem_cons.mp he3 with rfl | he4
  · exact ⟨2, rfl⟩
  · simp at he4

lemma c7inv0 : storeInvariant c7db.store := by
  intro t i
  by_cases h : t = ElementType.node ∧ i = 1
  · obtain ⟨rfl, rfl⟩ := h
    exact Or.inr (by decide)
  · push_neg at h
    left
    show rowsOf [c7a, c7b] t i = []
    apply rowsOf_pair_ne
    · rintro ⟨h1, h2⟩
      exact (h h1.symm) h2.symm
    · rintro ⟨h1, h2⟩
      exact (h h1.symm) h2.symm

lemma c7prep : PreparedBatch c7db.store c7p.apply_elements :=
  ⟨by decide, by decide, by decide, by decide⟩

/-- Witness for C7 at a concrete two-revision update chain on node 1: the
apply succeeds and the group's stored versions afterwards form the
contiguous range 1..4 with exactly one null `next_sequence_id`. -/
theorem apply_store_invariant_preserved_witness :
    applyModel 100 20 c7p c7db = Except.ok (c7db1, c7res) ∧
      ((rowsOf c7db1.store ElementType.node 1).map (fun e => e.version)).Perm
        (versionsRange 1 (rowsOf c7db1.store ElementType.node 1).length) ∧
      ((rowsOf c7db1.store ElementType.node 1).filter
        (fun e => decide (e.next_sequence_id = none))).length = 1 := by
  refine ⟨rfl, ?_⟩
  have h := apply_store_invariant_preserved 100 20 c7p c7db c7db1 c7res
    c7wf1 c7inv0 c7prep rfl
  rcases h ElementType.node 1 with h0 | h1
  · exact absurd h0 (by decide)
  · exact h1

end OsmNG
